import Mathlib

/-!
The header mutator of traefik-plugin-insert-custom-header.

A shallow embedding of `custom_headers.go`: the configuration compiler `New`,
the canonical request URL `fullRequestURL` and the request pass `ServeHTTP`,
together with the parts of the Go standard library they call
(`net/http.Header`, `net/textproto.CanonicalMIMEHeaderKey`, `regexp`).

* A Go `map[string][]string` is a function from keys to optional value lists.
* The `regexp` package is a parameter `P : RegexpPkg` of every definition that
  uses a pattern; `Rx.pkg` is a small executable instance.
* A nil-pointer dereference (a rule whose `regex` is nil being asked to
  replace) is the result `none`.
-/

set_option autoImplicit false

namespace InsertCustomHeader

/-! ## net/textproto and net/http.Header -/

/-- Go `textproto.validHeaderFieldByte`: the token characters of RFC 7230. -/
def validHeaderFieldByte (c : Char) : Bool :=
  c.isAlphanum || "!#$%&*+-.^_|~".data.contains c || c == Char.ofNat 39 || c == Char.ofNat 96

/-- The canonicalising loop of Go `textproto.canonicalMIMEHeaderKey`: upper case
for the first letter and for a letter after a dash, lower case elsewhere. -/
def canonicalMIMEHeaderKey : Bool → List Char → List Char
  | _, [] => []
  | upper, c :: cs =>
    let c1 :=
      if upper && c.isLower then c.toUpper
      else if !upper && c.isUpper then c.toLower
      else c
    c1 :: canonicalMIMEHeaderKey (c1 == '-') cs

/-- Go `textproto.CanonicalMIMEHeaderKey`: a key with a byte that is not a
token character is returned unchanged, any other key is canonicalised. -/
def CanonicalMIMEHeaderKey (s : String) : String :=
  if s.data.all validHeaderFieldByte then String.mk (canonicalMIMEHeaderKey true s.data) else s

/-- Go `http.Header`, a `map[string][]string`: `none` is an absent key. -/
def Header : Type := String → Option (List String)

namespace Header

/-- The empty map, `http.Header{}`. -/
def empty : Header := fun _ => none

/-- Go `Header.Values`: `h[CanonicalMIMEHeaderKey(key)]`, nil when absent. -/
def Values (h : Header) (key : String) : List String :=
  (h (CanonicalMIMEHeaderKey key)).getD []

/-- Go `Header.Del`: `delete(h, CanonicalMIMEHeaderKey(key))`. -/
def Del (h : Header) (key : String) : Header :=
  fun k => if k = CanonicalMIMEHeaderKey key then none else h k

/-- Go `Header.Add`: `key = CanonicalMIMEHeaderKey(key); h[key] = append(h[key], value)`. -/
def Add (h : Header) (key : String) (value : String) : Header :=
  fun k => if k = CanonicalMIMEHeaderKey key then some ((h k).getD [] ++ [value]) else h k

end Header

/-! ## regexp -/

/-- The part of Go's `regexp` package the plugin calls. `Compile` returns the
compiled pattern or the error text; `MatchString` is there to state that a
pattern has no match in a string, and `ReplaceAllString re src repl` returns
`src` itself in that case ("a copy of src, replacing matches"). -/
structure RegexpPkg where
  /-- The type `regexp.Regexp` -/
  Regexp : Type
  /-- The function `regexp.Compile` -/
  Compile : String → Except String Regexp
  /-- The method `(*Regexp).MatchString` -/
  MatchString : Regexp → String → Bool
  /-- The method `(*Regexp).ReplaceAllString`, `src` first and `repl` second -/
  ReplaceAllString : Regexp → String → String → String
  /-- Without a match nothing is replaced. -/
  replaceAll_of_no_match : ∀ re src repl, MatchString re src = false →
    ReplaceAllString re src repl = src

/-! ## A small executable instance of the regexp interface

The fragment of the RE2 syntax the plugin's tests use: literal characters,
escaped punctuation, `.`, `^`, `$`, capture groups, and `*`, `+`, `?` after a
one-character atom. Any other pattern is rejected by `Rx.Compile`. Matching is
leftmost-first with greedy repetition; positions count characters, and the
template names of `expand` are ASCII. -/

namespace Rx

/-- A pattern element that consumes one character. -/
inductive Atom where
  | lit (c : Char)
  | any
  deriving DecidableEq, Repr

/-- Whether the atom accepts the character; the dot does not accept a newline. -/
def Atom.test : Atom → Char → Bool
  | .lit c, x => x == c
  | .any, x => x != '\n'

/-- The instructions of a compiled pattern. -/
inductive Inst where
  | one (a : Atom)
  | star (a : Atom)
  | plus (a : Atom)
  | opt (a : Atom)
  | bol
  | eol
  | save (slot : Nat)
  deriving DecidableEq, Repr

/-- A compiled pattern. -/
structure Regexp where
  prog : List Inst
  deriving DecidableEq, Repr

/-- The instructions of a pending atom. -/
def flush : Option Atom → List Inst
  | none => []
  | some a => [.one a]

/-- The parser: `pending` is the atom a repetition operator would apply to, `ngroup` the
number of groups opened so far, `stack` the groups still open. -/
def parse : List Char → Option Atom → Nat → List Nat → Except String (List Inst)
  | [], pending, _, stack =>
    if stack = [] then .ok (flush pending) else .error "missing closing )"
  | '\\' :: [], _, _, _ => .error "trailing backslash at end of expression"
  | '\\' :: c :: cs, pending, ngroup, stack =>
    if c.toNat < 128 && !c.isAlphanum then
      (parse cs (some (.lit c)) ngroup stack).map (fun is => flush pending ++ is)
    else .error "escape sequence outside the supported fragment"
  | c :: cs, pending, ngroup, stack =>
    if c = '*' ∨ c = '+' ∨ c = '?' then
      match pending with
      | none => .error "missing argument to repetition operator"
      | some a =>
        (parse cs none ngroup stack).map (fun is =>
          (if c = '*' then Inst.star a else if c = '+' then Inst.plus a else Inst.opt a) :: is)
    else if c = '.' then (parse cs (some .any) ngroup stack).map (fun is => flush pending ++ is)
    else if c = '^' then (parse cs none ngroup stack).map (fun is => flush pending ++ .bol :: is)
    else if c = '$' then (parse cs none ngroup stack).map (fun is => flush pending ++ .eol :: is)
    else if c = '(' then
      (parse cs none (ngroup + 1) ((ngroup + 1) :: stack)).map (fun is =>
        flush pending ++ .save (2 * (ngroup + 1)) :: is)
    else if c = ')' then
      match stack with
      | [] => .error "unexpected )"
      | g :: stack1 =>
        (parse cs none ngroup stack1).map (fun is => flush pending ++ .save (2 * g + 1) :: is)
    else if c = '[' ∨ c = ']' ∨ c = Char.ofNat 123 ∨ c = Char.ofNat 125 ∨ c = '|' then
      .error "operator outside the supported fragment"
    else (parse cs (some (.lit c)) ngroup stack).map (fun is => flush pending ++ is)

/-- Compile a pattern of the fragment. -/
def Compile (expr : String) : Except String Regexp :=
  (parse expr.data none 0 []).map (fun prog => { prog := prog })

/-- Capture slots, latest first. -/
abbrev Caps := List (Nat × Nat)

/-- Greedy repetition of the atom `a` from position `pos`: the longest run of
accepted characters after which the continuation `k` succeeds. -/
def greedy (a : Atom) (k : Nat → List Char → Option (Nat × Caps)) :
    Nat → List Char → Option (Nat × Caps)
  | pos, [] => k pos []
  | pos, c :: cs =>
    if a.test c then
      match greedy a k (pos + 1) cs with
      | some r => some r
      | none => k pos (c :: cs)
    else k pos (c :: cs)

/-- Backtracking run of a program at position `pos`, `rest` being the text from
`pos` on: the end of the match and the capture slots. -/
def run : List Inst → Nat → List Char → Caps → Option (Nat × Caps)
  | [], pos, _, caps => some (pos, caps)
  | .one a :: is, pos, rest, caps =>
    match rest with
    | c :: cs => if a.test c then run is (pos + 1) cs caps else none
    | [] => none
  | .star a :: is, pos, rest, caps => greedy a (fun p r => run is p r caps) pos rest
  | .plus a :: is, pos, rest, caps =>
    match rest with
    | c :: cs => if a.test c then greedy a (fun p r => run is p r caps) (pos + 1) cs else none
    | [] => none
  | .opt a :: is, pos, rest, caps =>
    match rest with
    | c :: cs =>
      if a.test c then
        match run is (pos + 1) cs caps with
        | some r => some r
        | none => run is pos rest caps
      else run is pos rest caps
    | [] => run is pos rest caps
  | .bol :: is, pos, rest, caps => if pos = 0 then run is pos rest caps else none
  | .eol :: is, pos, rest, caps => if rest = [] then run is pos rest caps else none
  | .save n :: is, pos, rest, caps => run is pos rest ((n, pos) :: caps)

/-- The leftmost match starting at `pos` or later: its start, its end and its captures. -/
def search (prog : List Inst) (pos : Nat) : List Char → Option (Nat × Nat × Caps)
  | [] => (run prog pos [] []).map (fun r => (pos, r.1, r.2))
  | c :: cs =>
    match run prog pos (c :: cs) [] with
    | some r => some (pos, r.1, r.2)
    | none => search prog (pos + 1) cs

/-- Go `(*Regexp).MatchString`. -/
def MatchString (re : Regexp) (s : String) : Bool :=
  (search re.prog 0 s.data).isSome

/-- Go `strings.Cut(template, "$")`. -/
def cutDollar : List Char → Option (List Char × List Char)
  | [] => none
  | c :: cs =>
    if c = '$' then some ([], cs)
    else (cutDollar cs).map (fun r => (c :: r.1, r.2))

/-- The number a group name denotes, as at the end of Go `extract`. -/
def parseNum (name : List Char) : Option Nat :=
  if name.all Char.isDigit ∧ name.length ≤ 9 ∧ ¬ (name.head? = some '0' ∧ 1 < name.length) then
    some (name.foldl (fun n c => n * 10 + (c.toNat - '0'.toNat)) 0)
  else none

/-- Go `extract`: the name at the head of a template (after the dollar sign), the
number it denotes if any, and the rest of the template. -/
def extract (str : List Char) : Option (List Char × Option Nat × List Char) :=
  let brace := str.head? = some (Char.ofNat 123)
  let str1 := if brace then str.drop 1 else str
  let name := str1.takeWhile (fun c => c.isAlphanum || c == '_')
  let rest := str1.drop name.length
  if name = [] then none
  else if brace then
    match rest with
    | c :: rest1 => if c = Char.ofNat 125 then some (name, parseNum name, rest1) else none
    | [] => none
  else some (name, parseNum name, rest)

/-- The text of group `num` of a match of `src`. -/
def group (src : List Char) (a0 a1 : Nat) (caps : Caps) (num : Nat) : List Char :=
  if num = 0 then (src.drop a0).take (a1 - a0)
  else
    match caps.lookup (2 * num), caps.lookup (2 * num + 1) with
    | some s, some e => (src.drop s).take (e - s)
    | _, _ => []

/-- Go `(*Regexp).expand`; every turn of its loop shortens the template, so as
many turns as the template has characters, and one more, are enough. -/
def expand (src : List Char) (a0 a1 : Nat) (caps : Caps) :
    Nat → List Char → List Char → List Char
  | 0, template, dst => dst ++ template
  | fuel + 1, template, dst =>
    match cutDollar template with
    | none => dst ++ template
    | some (before, after) =>
      match after with
      | '$' :: t => expand src a0 a1 caps fuel t (dst ++ before ++ ['$'])
      | _ =>
        match extract after with
        | none => expand src a0 a1 caps fuel after (dst ++ before ++ ['$'])
        | some (_, some num, rest) =>
          expand src a0 a1 caps fuel rest (dst ++ before ++ group src a0 a1 caps num)
        | some (_, none, rest) => expand src a0 a1 caps fuel rest (dst ++ before)

/-- Go `(*Regexp).replaceAll`, positions counted in characters; every turn of
its loop moves `searchPos` forward, so two turns more than `src` has
characters are enough. -/
def replaceAll (re : Regexp) (src repl : List Char) : Nat → Nat → Nat → List Char → List Char
  | 0, lastMatchEnd, _, buf => buf ++ src.drop lastMatchEnd
  | fuel + 1, lastMatchEnd, searchPos, buf =>
    if searchPos ≤ src.length then
      match search re.prog searchPos (src.drop searchPos) with
      | none => buf ++ src.drop lastMatchEnd
      | some (a0, a1, caps) =>
        let buf1 := buf ++ (src.drop lastMatchEnd).take (a0 - lastMatchEnd)
        let buf2 :=
          if a1 > lastMatchEnd ∨ a0 = 0 then expand src a0 a1 caps (repl.length + 1) repl buf1
          else buf1
        let width := if searchPos < src.length then 1 else 0
        let searchPos1 :=
          if searchPos + width > a1 then searchPos + width
          else if searchPos + 1 > a1 then searchPos + 1
          else a1
        replaceAll re src repl fuel a1 searchPos1 buf2
    else buf ++ src.drop lastMatchEnd

/-- Go `(*Regexp).ReplaceAllString`. -/
def ReplaceAllString (re : Regexp) (src repl : String) : String :=
  String.mk (replaceAll re src.data repl.data (src.data.length + 2) 0 0 [])

/-- The fragment as an instance of the `regexp` interface. -/
def pkg : RegexpPkg where
  Regexp := Regexp
  Compile := Compile
  MatchString := MatchString
  ReplaceAllString := ReplaceAllString
  replaceAll_of_no_match := by
    intro re src repl h
    unfold MatchString at h
    unfold ReplaceAllString
    rw [replaceAll]
    simp only [Nat.zero_le, if_true, List.drop_zero]
    cases hs : search re.prog 0 src.data with
    | none => simp
    | some r => rw [hs] at h; simp at h

end Rx

/-! ## custom_headers.go: types -/

/-- Go `Mutation`: one header rule of the configuration. -/
structure Mutation where
  Header : String
  NewName : String
  Regex : String
  Replacement : String
  deriving DecidableEq, Repr

/-- Go `FromUrlMutation`: one from-URL rule of the configuration. -/
structure FromUrlMutation where
  NewName : String
  Regex : String
  Replacement : String
  deriving DecidableEq, Repr

/-- Go `Config`. -/
structure Config where
  Mutations : List Mutation
  FromUrlMutations : List FromUrlMutation
  deriving DecidableEq, Repr

/-- Go `CreateConfig`: `&Config{}`. -/
def CreateConfig : Config := { Mutations := [], FromUrlMutations := [] }

/-- Go `mutation`: a compiled header rule; `regex` is a pointer, `none` is nil. -/
structure mutation (P : RegexpPkg) where
  oldName : String
  newName : String
  deleteSource : Bool
  mutate : Bool
  regex : Option P.Regexp
  replacement : String

/-- Go `fromUrlMutation`: a compiled from-URL rule. -/
structure fromUrlMutation (P : RegexpPkg) where
  newName : String
  regex : Option P.Regexp
  replacement : String

/-- Go `tls.ConnectionState`; only its presence is looked at. -/
structure ConnectionState where
  ServerName : String
  deriving DecidableEq, Repr

/-- Go `url.URL`, as the value its method `RequestURI()` returns: the path and
query string of the request. -/
structure URL where
  RequestURI : String
  deriving DecidableEq, Repr

/-- Go `http.Request`, the fields the plugin reads. -/
structure Request where
  TLS : Option ConnectionState
  Host : String
  URL : URL
  Header : Header

/-- Go `http.ResponseWriter`, as the state a recorder keeps. -/
structure ResponseWriter where
  Code : Nat
  Body : String
  deriving DecidableEq, Repr

/-- Go `http.Handler`: `ServeHTTP(rw, req)` may change the writer and the request. -/
def Handler : Type := ResponseWriter → Request → ResponseWriter × Request

/-- Go `HeaderMutator`. -/
structure HeaderMutator (P : RegexpPkg) where
  name : String
  next : Handler
  mutations : List (mutation P)
  fromUrlMutations : List (fromUrlMutation P)

/-- The errors `New` returns, one constructor for each `fmt.Errorf` of the source. -/
inductive NewError where
  /-- The error text `error compiling regex %q: %w` -/
  | compileRegex (pattern : String) (err : String)
  /-- The error text `replacement is required when regex is set` -/
  | replacementRequiredWhenRegexSet
  /-- The error text `regex for url mutation cannot be empty` -/
  | urlRegexEmpty
  /-- The error text `replacement is required` -/
  | replacementRequired
  deriving DecidableEq, Repr

/-! ## custom_headers.go: New -/

/-- The first loop of `New`, over `config.Mutations`. -/
def New.mutations (P : RegexpPkg) : List Mutation → Except NewError (List (mutation P))
  | [] => .ok []
  | m :: rest =>
    let mt : mutation P :=
      { oldName := m.Header, newName := m.NewName, deleteSource := false, mutate := false,
        regex := none, replacement := "" }
    if m.Regex ≠ "" then
      match P.Compile m.Regex with
      | .error err => .error (.compileRegex m.Regex err)
      | .ok regex =>
        if m.Replacement = "" then .error .replacementRequiredWhenRegexSet
        else
          match New.mutations P rest with
          | .error e => .error e
          | .ok mts =>
            .ok ({ mt with mutate := true, regex := some regex, replacement := m.Replacement } :: mts)
    else
      match New.mutations P rest with
      | .error e => .error e
      | .ok mts => .ok ({ mt with mutate := false } :: mts)

/-- The second loop of `New`, over `config.FromUrlMutations`. -/
def New.fromUrlMutations (P : RegexpPkg) :
    List FromUrlMutation → Except NewError (List (fromUrlMutation P))
  | [] => .ok []
  | m :: rest =>
    let mt : fromUrlMutation P := { newName := m.NewName, regex := none, replacement := "" }
    if m.Regex = "" then .error .urlRegexEmpty
    else
      match P.Compile m.Regex with
      | .error err => .error (.compileRegex m.Regex err)
      | .ok regex =>
        if m.Replacement = "" then .error .replacementRequired
        else
          match New.fromUrlMutations P rest with
          | .error e => .error e
          | .ok mts => .ok ({ mt with regex := some regex, replacement := m.Replacement } :: mts)

/-- Go `New`: `.error e` is the return `nil, err`, `.ok h` the return `h, nil`. -/
def New (P : RegexpPkg) (next : Handler) (config : Config) (name : String) :
    Except NewError (HeaderMutator P) :=
  match New.mutations P config.Mutations with
  | .error e => .error e
  | .ok mutations =>
    match New.fromUrlMutations P config.FromUrlMutations with
    | .error e => .error e
    | .ok fromUrlMutations =>
      .ok { name := name, next := next, mutations := mutations,
            fromUrlMutations := fromUrlMutations }

/-! ## custom_headers.go: fullRequestURL and ServeHTTP -/

/-- Go `fullRequestURL`: `fmt.Sprintf("%s://%s%s", scheme, req.Host, req.URL.RequestURI())`. -/
def fullRequestURL (req : Request) : String :=
  let scheme := if req.TLS ≠ none then "https" else "http"
  scheme ++ "://" ++ req.Host ++ req.URL.RequestURI

/-- The inner loop of `ServeHTTP`, `for _, v := range headerValues`, writing
under `newName`; `none` when `m.regex` is nil and `m.mutate` is set. -/
def ServeHTTP.addValues {P : RegexpPkg} (m : mutation P) (newName : String) :
    List String → Header → Option Header
  | [], h => some h
  | v :: vs, h =>
    if m.mutate then
      match m.regex with
      | none => none
      | some regex =>
        let mv := P.ReplaceAllString regex v m.replacement
        if mv ≠ "" then ServeHTTP.addValues m newName vs (h.Add newName mv)
        else ServeHTTP.addValues m newName vs (h.Add newName v)
    else ServeHTTP.addValues m newName vs (h.Add newName v)

/-- The body of the first loop of `ServeHTTP`, for one rule `m`. -/
def ServeHTTP.applyMutation {P : RegexpPkg} (m : mutation P) (h : Header) : Option Header :=
  if m.newName = "" ∧ m.mutate = false then some h
  else
    let headerValues := h.Values m.oldName
    if headerValues.length = 0 then some h
    else
      let h1 := if m.deleteSource then h.Del m.oldName else h
      let newName := if m.newName = "" then m.oldName else m.newName
      let h2 := h1.Del newName
      ServeHTTP.addValues m newName headerValues h2

/-- The first loop of `ServeHTTP`, `for _, m := range h.mutations`. -/
def ServeHTTP.applyMutations {P : RegexpPkg} : List (mutation P) → Header → Option Header
  | [], h => some h
  | m :: ms, h =>
    match ServeHTTP.applyMutation m h with
    | none => none
    | some h1 => ServeHTTP.applyMutations ms h1

/-- The body of the second loop of `ServeHTTP`, for one from-URL rule `m`. -/
def ServeHTTP.applyFromUrlMutation {P : RegexpPkg} (url : String) (m : fromUrlMutation P)
    (h : Header) : Option Header :=
  match m.regex with
  | none => none
  | some regex =>
    let mv := P.ReplaceAllString regex url m.replacement
    if mv ≠ "" then some (h.Add m.newName mv)
    else some (h.Add m.newName url)

/-- The second loop of `ServeHTTP`, `for _, m := range h.fromUrlMutations`. -/
def ServeHTTP.applyFromUrlMutations {P : RegexpPkg} (url : String) :
    List (fromUrlMutation P) → Header → Option Header
  | [], h => some h
  | m :: ms, h =>
    match ServeHTTP.applyFromUrlMutation url m h with
    | none => none
    | some h1 => ServeHTTP.applyFromUrlMutations url ms h1

/-- Go `(*HeaderMutator).ServeHTTP`: the writer and the request as the next
handler leaves them, `none` when the pass panics. -/
def HeaderMutator.ServeHTTP {P : RegexpPkg} (h : HeaderMutator P) (rw : ResponseWriter)
    (req : Request) : Option (ResponseWriter × Request) :=
  match ServeHTTP.applyMutations h.mutations req.Header with
  | none => none
  | some hd1 =>
    let req1 : Request := { req with Header := hd1 }
    let url := fullRequestURL req1
    match ServeHTTP.applyFromUrlMutations url h.fromUrlMutations req1.Header with
    | none => none
    | some hd2 => some (h.next rw { req1 with Header := hd2 })

/-- The name a rule writes under: the value of `m.newName` after the statement
`if m.newName == "" { m.newName = m.oldName }` of `ServeHTTP`. -/
def mutation.destination {P : RegexpPkg} (m : mutation P) : String :=
  if m.newName = "" then m.oldName else m.newName

/-! ## Fixtures: rules and header maps of the repository's tests -/

/-- The compiled pattern of an expression of the fragment, the empty program
for any other expression. -/
def Rx.compiled (expr : String) : Rx.Regexp :=
  match Rx.Compile expr with
  | .ok re => re
  | .error _ => { prog := [] }

/-- The rule of the test "preserve the value if regex does not match". -/
def hostSuffixRule : mutation Rx.pkg :=
  { oldName := "Host", newName := "X-Host", deleteSource := false, mutate := true,
    regex := some (Rx.compiled "^(.+)\\.test\\.com$"), replacement := "$1" }

/-- The rule of the test "should clone the header". -/
def hostCloneRule : mutation Rx.pkg :=
  { oldName := "Host", newName := "X-Host", deleteSource := false, mutate := false,
    regex := none, replacement := "" }

/-- The rule of the test "should replace foo by bar in location header". -/
def fooBarRule : mutation Rx.pkg :=
  { oldName := "Location", newName := "", deleteSource := false, mutate := true,
    regex := some (Rx.compiled "foo"), replacement := "bar" }

/-- The rule of the test "should replace http by https in location header". -/
def httpsRule : mutation Rx.pkg :=
  { oldName := "Location", newName := "", deleteSource := false, mutate := true,
    regex := some (Rx.compiled "^http://(.+)$"), replacement := "https://$1" }

/-- A rule with neither a destination name nor a pattern. -/
def noopRule : mutation Rx.pkg :=
  { oldName := "Host", newName := "", deleteSource := false, mutate := false,
    regex := none, replacement := "" }

/-- The request header of the tests: `host` added with the value `example.com`. -/
def hostHeader : Header := Header.empty.Add "host" "example.com"

/-- The header `hostHeader` with two values already under `X-Host`. -/
def hostHeaderWithXHost : Header :=
  ((Header.empty.Add "host" "example.com").Add "x-host" "old.example").Add "x-host" "older.example"

/-- The request header of the first test: two `Location` values. -/
def locationHeader : Header := (Header.empty.Add "Location" "foo").Add "Location" "anotherfoo"

/-- The from-URL rule of the test "creates new header from url parsing". -/
def urlPartsRule : fromUrlMutation Rx.pkg :=
  { newName := "New_Header", regex := some (Rx.compiled "^http://(.+)\\.com/(.+)$"),
    replacement := "$1-$2" }

/-- The from-URL rule of the test "creates new header from url with whatever the
url is, if regex does not match". -/
def urlSuffixRule : fromUrlMutation Rx.pkg :=
  { newName := "New_Header", regex := some (Rx.compiled "^(.+)\\.test\\.com$"),
    replacement := "$1" }

/-- The request of the tests: a plain `GET /test` on the host `example.com`. -/
def testRequest : Request :=
  { TLS := none, Host := "example.com", URL := { RequestURI := "/test" }, Header := hostHeader }

/-- One case of the test table of `TestHeaderMutator`: build the engine with a
next handler that does nothing, add the request headers to the request of
`httptest.NewRequest(GET, "/test")`, serve, and compare `Values` with every
expected entry. -/
def TestHeaderMutator (mutations : List Mutation) (fromUrlMutations : List FromUrlMutation)
    (reqHeader expRespHeader : List (String × List String)) : Bool :=
  match New Rx.pkg (fun rw r => (rw, r))
      { Mutations := mutations, FromUrlMutations := fromUrlMutations } "mutateHeaders" with
  | .error _ => false
  | .ok mutator =>
    let r : Request :=
      { TLS := none, Host := "example.com", URL := { RequestURI := "/test" },
        Header := reqHeader.foldl (fun h kv => kv.2.foldl (fun h v => h.Add kv.1 v) h)
          Header.empty }
    match mutator.ServeHTTP { Code := 200, Body := "" } r with
    | none => false
    | some (_, r1) => expRespHeader.all (fun kv => r1.Header.Values kv.1 == kv.2)

/-- A rule that clones `Location` to `X-Host`, the destination of `hostCloneRule`. -/
def locationCloneRule : mutation Rx.pkg :=
  { oldName := "Location", newName := "X-Host", deleteSource := false, mutate := false,
    regex := none, replacement := "" }

/-- A request header with a `host` value and a `Location` value. -/
def hostLocationHeader : Header :=
  (Header.empty.Add "host" "example.com").Add "Location" "foo"

/-- A rule that clones a header whose name has a space, under the given spelling, to `X-Out`. -/
def spacedNameRule (spelling : String) : mutation Rx.pkg :=
  { oldName := spelling, newName := "X-Out", deleteSource := false, mutate := false,
    regex := none, replacement := "" }

/-- A rule that clones the header `my header` onto `My Header`. -/
def spacedSelfCloneRule : mutation Rx.pkg :=
  { oldName := "my header", newName := "My Header", deleteSource := false, mutate := false,
    regex := none, replacement := "" }

/-- A request header with one value added under `my header`. -/
def spacedNameHeader : Header := Header.empty.Add "my header" "v"

/-- A next handler that counts its calls in the status code of the writer. -/
def countingNext : Handler := fun rw r => ({ rw with Code := rw.Code + 1 }, r)

/-- A configuration with the rule of the test "should clone the header" (and a
Replacement without a Regex), the rule of the first test and a from-URL rule. -/
def testConfig : Config :=
  { Mutations := [⟨"Host", "X-Host", "", "unused"⟩, ⟨"Location", "", "foo", "bar"⟩],
    FromUrlMutations := [⟨"New_Header", "^http://(.+)\\.com/(.+)$", "$1-$2"⟩] }

/-- The engine `New` builds from `testConfig` with the handler `countingNext`. -/
def testMutator : HeaderMutator Rx.pkg :=
  { name := "mutateHeaders", next := countingNext,
    mutations := [hostCloneRule, fooBarRule], fromUrlMutations := [urlPartsRule] }

/-- A rule that clones `Host` to `New_Header`, the destination of `urlPartsRule`. -/
def hostToNewHeaderRule : mutation Rx.pkg :=
  { oldName := "Host", newName := "New_Header", deleteSource := false, mutate := false,
    regex := none, replacement := "" }

/-- A configuration whose header rule and from-URL rule share the destination `New_Header`. -/
def sharedDestinationConfig : Config :=
  { Mutations := [⟨"Host", "New_Header", "", ""⟩],
    FromUrlMutations := [⟨"New_Header", "^http://(.+)\\.com/(.+)$", "$1-$2"⟩] }

/-- The engine `New` builds from `sharedDestinationConfig` with the handler `countingNext`. -/
def sharedDestinationMutator : HeaderMutator Rx.pkg :=
  { name := "mutateHeaders", next := countingNext,
    mutations := [hostToNewHeaderRule], fromUrlMutations := [urlPartsRule] }

/-! ## Lemmas on header maps -/

theorem Header.Values_Add (h : Header) (key value key1 : String) :
    (h.Add key value).Values key1 =
      if CanonicalMIMEHeaderKey key1 = CanonicalMIMEHeaderKey key then h.Values key1 ++ [value]
      else h.Values key1 := by
  unfold Header.Values Header.Add
  split <;> simp

theorem Header.Values_Del (h : Header) (key key1 : String) :
    (h.Del key).Values key1 =
      if CanonicalMIMEHeaderKey key1 = CanonicalMIMEHeaderKey key then [] else h.Values key1 := by
  unfold Header.Values Header.Del
  split <;> simp

theorem Header.Values_Add_self (h : Header) (key value : String) :
    (h.Add key value).Values key = h.Values key ++ [value] := by
  rw [Header.Values_Add, if_pos rfl]

theorem Header.Values_Del_self (h : Header) (key : String) : (h.Del key).Values key = [] := by
  rw [Header.Values_Del, if_pos rfl]

/-! ## New -/

/-- The header rules `New` rejects. -/
theorem New.mutations_error_iff (P : RegexpPkg) (ms : List Mutation) :
    (∃ e, New.mutations P ms = .error e) ↔
      ∃ m ∈ ms, m.Regex ≠ "" ∧ ((∃ err, P.Compile m.Regex = .error err) ∨ m.Replacement = "") := by
  induction ms with
  | nil => simp [New.mutations]
  | cons m rest ih =>
    rw [New.mutations]
    by_cases hre : m.Regex = ""
    · simp only [hre, ne_eq, not_true_eq_false, if_false, List.mem_cons, exists_eq_or_imp,
        false_and, false_or]
      rw [← ih]
      cases New.mutations P rest <;> simp
    · simp only [ne_eq, hre, not_false_eq_true, if_true, List.mem_cons, exists_eq_or_imp,
        true_and]
      rw [← ih]
      cases hc : P.Compile m.Regex with
      | error err => simp
      | ok regex =>
        by_cases hrep : m.Replacement = ""
        · simp [hrep]
        · simp only [hrep, if_false, reduceCtorEq, exists_false, or_self, false_or]
          cases New.mutations P rest <;> simp

/-- The from-URL rules `New` rejects. -/
theorem New.fromUrlMutations_error_iff (P : RegexpPkg) (ms : List FromUrlMutation) :
    (∃ e, New.fromUrlMutations P ms = .error e) ↔
      ∃ m ∈ ms, m.Regex = "" ∨ (∃ err, P.Compile m.Regex = .error err) ∨ m.Replacement = "" := by
  induction ms with
  | nil => simp [New.fromUrlMutations]
  | cons m rest ih =>
    rw [New.fromUrlMutations]
    simp only [List.mem_cons, exists_eq_or_imp]
    rw [← ih]
    by_cases hre : m.Regex = ""
    · simp [hre]
    · simp only [hre, if_false, false_or]
      cases hc : P.Compile m.Regex with
      | error err => simp
      | ok regex =>
        by_cases hrep : m.Replacement = ""
        · simp [hrep]
        · simp only [hrep, if_false, reduceCtorEq, exists_false, or_self, false_or]
          cases New.fromUrlMutations P rest <;> simp

/-- C1: `New` returns an error (and so no handler) exactly when some header
rule has a non-empty Regex that does not compile or that comes with an empty
Replacement, or some from-URL rule has an empty Regex, a Regex that does not
compile or an empty Replacement; for every other configuration it returns a
`HeaderMutator` and no error. -/
theorem New_error_iff (P : RegexpPkg) (next : Handler) (config : Config) (name : String) :
    ((∃ e, New P next config name = .error e) ↔
      ((∃ m ∈ config.Mutations,
          m.Regex ≠ "" ∧ ((∃ err, P.Compile m.Regex = .error err) ∨ m.Replacement = "")) ∨
        (∃ m ∈ config.FromUrlMutations,
          m.Regex = "" ∨ (∃ err, P.Compile m.Regex = .error err) ∨ m.Replacement = ""))) ∧
    ((∃ h, New P next config name = .ok h) ↔
      ¬ ((∃ m ∈ config.Mutations,
          m.Regex ≠ "" ∧ ((∃ err, P.Compile m.Regex = .error err) ∨ m.Replacement = "")) ∨
        (∃ m ∈ config.FromUrlMutations,
          m.Regex = "" ∨ (∃ err, P.Compile m.Regex = .error err) ∨ m.Replacement = ""))) := by
  have key : (∃ e, New P next config name = .error e) ↔
      ((∃ e, New.mutations P config.Mutations = .error e) ∨
        (∃ e, New.fromUrlMutations P config.FromUrlMutations = .error e)) := by
    unfold New
    cases New.mutations P config.Mutations with
    | error e => simp
    | ok ms =>
      cases New.fromUrlMutations P config.FromUrlMutations with
      | error e => simp
      | ok us => simp
  rw [← New.mutations_error_iff, ← New.fromUrlMutations_error_iff, ← key]
  refine ⟨Iff.rfl, ?_⟩
  cases New P next config name with
  | error e => simp
  | ok h => simp

/-! ## ServeHTTP: one header rule -/

/-- Adding the images of `vs` under `D`, seen through `Values`. -/
theorem Header.Values_foldl_Add (f : String → String) (D : String) (vs : List String)
    (h : Header) (key : String) :
    (vs.foldl (fun acc v => acc.Add D (f v)) h).Values key =
      if CanonicalMIMEHeaderKey key = CanonicalMIMEHeaderKey D then h.Values key ++ vs.map f
      else h.Values key := by
  induction vs generalizing h with
  | nil => simp
  | cons v vs ih =>
    rw [List.foldl_cons, ih, Header.Values_Add]
    split <;> simp

/-- The inner loop of a rule with a pattern writes, for each value, the
replacement result, or the value itself when that result is empty. -/
theorem ServeHTTP.addValues_mutate {P : RegexpPkg} (m : mutation P) (re : P.Regexp)
    (hmut : m.mutate = true) (hre : m.regex = some re) (D : String) (vs : List String)
    (h : Header) :
    ServeHTTP.addValues m D vs h =
      some (vs.foldl (fun acc v => acc.Add D
        (if P.ReplaceAllString re v m.replacement = "" then v
         else P.ReplaceAllString re v m.replacement)) h) := by
  induction vs generalizing h with
  | nil => simp [ServeHTTP.addValues]
  | cons v vs ih =>
    rw [ServeHTTP.addValues]
    simp only [hmut, if_true, hre, ne_eq, ite_not, List.foldl_cons]
    split <;> exact ih _

/-- The inner loop of a rule without a pattern copies the values. -/
theorem ServeHTTP.addValues_clone {P : RegexpPkg} (m : mutation P) (hmut : m.mutate = false)
    (D : String) (vs : List String) (h : Header) :
    ServeHTTP.addValues m D vs h = some (vs.foldl (fun acc v => acc.Add D (id v)) h) := by
  induction vs generalizing h with
  | nil => simp [ServeHTTP.addValues]
  | cons v vs ih =>
    rw [ServeHTTP.addValues]
    simp only [hmut, Bool.false_eq_true, if_false, List.foldl_cons, id]
    exact ih _

/-- A rule that is applied leaves under its destination the images of the
source values, whatever the destination held. -/
theorem ServeHTTP.applyMutation_values {P : RegexpPkg} (m : mutation P) (h : Header)
    (f : String → String)
    (hadd : ∀ D vs h0, ServeHTTP.addValues m D vs h0 =
      some (vs.foldl (fun acc v => acc.Add D (f v)) h0))
    (happlied : ¬ (m.newName = "" ∧ m.mutate = false)) (hsrc : h.Values m.oldName ≠ []) :
    ∃ h1, ServeHTTP.applyMutation m h = some h1 ∧
      h1.Values (if m.newName = "" then m.oldName else m.newName) =
        (h.Values m.oldName).map f := by
  unfold ServeHTTP.applyMutation
  rw [if_neg happlied, if_neg (by simpa using hsrc)]
  simp only [hadd]
  refine ⟨_, rfl, ?_⟩
  rw [Header.Values_foldl_Add, if_pos rfl, Header.Values_Del_self, List.nil_append]

/-- C2: a rule with a pattern whose source header has a value and whose pattern
matches none of the source values leaves, under its effective destination,
exactly the source values, in order. -/
theorem applyMutation_no_match_preserves {P : RegexpPkg} (m : mutation P) (re : P.Regexp)
    (h : Header) (hmut : m.mutate = true) (hre : m.regex = some re)
    (hsrc : h.Values m.oldName ≠ [])
    (hno : ∀ v ∈ h.Values m.oldName, P.MatchString re v = false) :
    ∃ h1, ServeHTTP.applyMutation m h = some h1 ∧
      h1.Values (if m.newName = "" then m.oldName else m.newName) = h.Values m.oldName := by
  obtain ⟨h1, hrun, hval⟩ := ServeHTTP.applyMutation_values m h _
    (ServeHTTP.addValues_mutate m re hmut hre) (by simp [hmut]) hsrc
  refine ⟨h1, hrun, ?_⟩
  rw [hval]
  conv_rhs => rw [← List.map_id (h.Values m.oldName)]
  apply List.map_congr_left
  intro v hv
  simp [P.replaceAll_of_no_match re v m.replacement (hno v hv)]

/-- C3: a rule without a pattern and with a destination name, whose source
header has a value, leaves under the destination the sequence of values the
source held before the rule ran. -/
theorem applyMutation_clone {P : RegexpPkg} (m : mutation P) (h : Header)
    (hmut : m.mutate = false) (hname : m.newName ≠ "") (hsrc : h.Values m.oldName ≠ []) :
    ∃ h1, ServeHTTP.applyMutation m h = some h1 ∧
      h1.Values m.newName = h.Values m.oldName := by
  obtain ⟨h1, hrun, hval⟩ := ServeHTTP.applyMutation_values m h id
    (ServeHTTP.addValues_clone m hmut) (by simp [hname]) hsrc
  refine ⟨h1, hrun, ?_⟩
  rw [if_neg hname] at hval
  rw [hval, List.map_id]

/-- The witness of C2: `Host: example.com` with `^(.+)\\.test\\.com$` gives `X-Host: example.com`. -/
theorem applyMutation_no_match_preserves_witness :
    hostHeader.Values hostSuffixRule.oldName = ["example.com"] ∧
    (∀ v ∈ hostHeader.Values hostSuffixRule.oldName,
      Rx.pkg.MatchString (Rx.compiled "^(.+)\\.test\\.com$") v = false) ∧
    ∃ h1, ServeHTTP.applyMutation hostSuffixRule hostHeader = some h1 ∧
      h1.Values (if hostSuffixRule.newName = "" then hostSuffixRule.oldName
        else hostSuffixRule.newName) = hostHeader.Values hostSuffixRule.oldName :=
  ⟨by decide, by decide,
    applyMutation_no_match_preserves hostSuffixRule (Rx.compiled "^(.+)\\.test\\.com$")
      hostHeader rfl rfl (by decide) (by decide)⟩

/-- The witness of C3: `Host: example.com` cloned to `X-Host`. -/
theorem applyMutation_clone_witness :
    hostHeader.Values hostCloneRule.oldName = ["example.com"] ∧
    ∃ h1, ServeHTTP.applyMutation hostCloneRule hostHeader = some h1 ∧
      h1.Values hostCloneRule.newName = hostHeader.Values hostCloneRule.oldName :=
  ⟨by decide, applyMutation_clone hostCloneRule hostHeader rfl (by decide) (by decide)⟩

/-- The inner loop of a rule whose pattern is there when `mutate` is set writes
the image of each value under one function of the rule. -/
theorem ServeHTTP.addValues_total {P : RegexpPkg} (m : mutation P)
    (hwf : m.mutate = true → m.regex ≠ none) :
    ∃ f : String → String, ∀ D vs h0, ServeHTTP.addValues m D vs h0 =
      some (vs.foldl (fun acc v => acc.Add D (f v)) h0) := by
  cases hmut : m.mutate with
  | false => exact ⟨id, ServeHTTP.addValues_clone m hmut⟩
  | true =>
    cases hre : m.regex with
    | none => exact absurd hre (hwf hmut)
    | some re => exact ⟨_, ServeHTTP.addValues_mutate m re hmut hre⟩

/-- C4: a rule that is applied replaces what its destination held: on two
header maps that agree on the source header, whatever they hold under the
destination, the rule leaves the same values under the destination, as many
as the source header has. -/
theorem applyMutation_replaces_destination {P : RegexpPkg} (m : mutation P) (ha hb : Header)
    (happlied : m.newName ≠ "" ∨ m.mutate = true)
    (hwf : m.mutate = true → m.regex ≠ none)
    (hsrc : ha.Values m.oldName ≠ [])
    (hagree : ha.Values m.oldName = hb.Values m.oldName) :
    ∃ ha1 hb1, ServeHTTP.applyMutation m ha = some ha1 ∧
      ServeHTTP.applyMutation m hb = some hb1 ∧
      ha1.Values (if m.newName = "" then m.oldName else m.newName) =
        hb1.Values (if m.newName = "" then m.oldName else m.newName) ∧
      (ha1.Values (if m.newName = "" then m.oldName else m.newName)).length =
        (ha.Values m.oldName).length := by
  obtain ⟨f, hf⟩ := ServeHTTP.addValues_total m hwf
  have hgo : ¬ (m.newName = "" ∧ m.mutate = false) := by
    rintro ⟨h1, h2⟩
    rcases happlied with h | h
    · exact h h1
    · rw [h2] at h; exact Bool.false_ne_true h
  obtain ⟨ha1, hra, hva⟩ := ServeHTTP.applyMutation_values m ha f hf hgo hsrc
  obtain ⟨hb1, hrb, hvb⟩ := ServeHTTP.applyMutation_values m hb f hf hgo (hagree ▸ hsrc)
  exact ⟨ha1, hb1, hra, hrb, by rw [hva, hvb, hagree], by rw [hva, List.length_map]⟩

/-- The witness of C4: `X-Host` ends as `[example.com]` whether it was absent
or held two values. -/
theorem applyMutation_replaces_destination_witness :
    hostHeader.Values "X-Host" = [] ∧
    hostHeaderWithXHost.Values "X-Host" = ["old.example", "older.example"] ∧
    ∃ ha1 hb1, ServeHTTP.applyMutation hostSuffixRule hostHeader = some ha1 ∧
      ServeHTTP.applyMutation hostSuffixRule hostHeaderWithXHost = some hb1 ∧
      ha1.Values (if hostSuffixRule.newName = "" then hostSuffixRule.oldName
        else hostSuffixRule.newName) =
        hb1.Values (if hostSuffixRule.newName = "" then hostSuffixRule.oldName
          else hostSuffixRule.newName) ∧
      (ha1.Values (if hostSuffixRule.newName = "" then hostSuffixRule.oldName
        else hostSuffixRule.newName)).length =
        (hostHeader.Values hostSuffixRule.oldName).length :=
  ⟨by decide, by decide,
    applyMutation_replaces_destination hostSuffixRule hostHeader hostHeaderWithXHost
      (Or.inl (by decide)) (fun _ => by simp [hostSuffixRule]) (by decide) (by decide)⟩

/-- C5: a rule with an empty destination name and a pattern rewrites its source
header in place: the source header ends with as many values as it had, the
i-th being the replacement result on the i-th value, or that value itself
when the result is empty. -/
theorem applyMutation_in_place {P : RegexpPkg} (m : mutation P) (re : P.Regexp) (h : Header)
    (hname : m.newName = "") (hmut : m.mutate = true) (hre : m.regex = some re)
    (hsrc : h.Values m.oldName ≠ []) :
    ∃ h1, ServeHTTP.applyMutation m h = some h1 ∧
      h1.Values m.oldName = (h.Values m.oldName).map (fun v =>
        if P.ReplaceAllString re v m.replacement = "" then v
        else P.ReplaceAllString re v m.replacement) ∧
      (h1.Values m.oldName).length = (h.Values m.oldName).length := by
  obtain ⟨h1, hrun, hval⟩ := ServeHTTP.applyMutation_values m h _
    (ServeHTTP.addValues_mutate m re hmut hre) (by simp [hmut]) hsrc
  rw [if_pos hname] at hval
  exact ⟨h1, hrun, hval, by rw [hval, List.length_map]⟩

/-- The witness of C5: `Location: foo, anotherfoo` with `foo -> bar`. -/
theorem applyMutation_in_place_witness :
    locationHeader.Values fooBarRule.oldName = ["foo", "anotherfoo"] ∧
    (locationHeader.Values fooBarRule.oldName).map (fun v =>
        if Rx.pkg.ReplaceAllString (Rx.compiled "foo") v fooBarRule.replacement = "" then v
        else Rx.pkg.ReplaceAllString (Rx.compiled "foo") v fooBarRule.replacement) =
      ["bar", "anotherbar"] ∧
    ∃ h1, ServeHTTP.applyMutation fooBarRule locationHeader = some h1 ∧
      h1.Values fooBarRule.oldName = (locationHeader.Values fooBarRule.oldName).map (fun v =>
        if Rx.pkg.ReplaceAllString (Rx.compiled "foo") v fooBarRule.replacement = "" then v
        else Rx.pkg.ReplaceAllString (Rx.compiled "foo") v fooBarRule.replacement) ∧
      (h1.Values fooBarRule.oldName).length = (locationHeader.Values fooBarRule.oldName).length :=
  ⟨by decide, by decide,
    applyMutation_in_place fooBarRule (Rx.compiled "foo") locationHeader rfl rfl rfl
      (by decide)⟩

/-- C6: a rule with a pattern writes under its destination, for each source
value, the replacement result when it is not empty and the source value when
it is; so where the source value is not empty, the written value is not
empty. -/
theorem applyMutation_written_values {P : RegexpPkg} (m : mutation P) (re : P.Regexp)
    (h : Header) (hmut : m.mutate = true) (hre : m.regex = some re)
    (hsrc : h.Values m.oldName ≠ []) :
    ∃ h1, ServeHTTP.applyMutation m h = some h1 ∧
      h1.Values (if m.newName = "" then m.oldName else m.newName) =
        (h.Values m.oldName).map (fun v =>
          if P.ReplaceAllString re v m.replacement = "" then v
          else P.ReplaceAllString re v m.replacement) ∧
      ∀ (i : Nat) (v : String), (h.Values m.oldName)[i]? = some v → v ≠ "" →
        ∃ w, (h1.Values (if m.newName = "" then m.oldName else m.newName))[i]? = some w ∧
          w ≠ "" ∧ (w = P.ReplaceAllString re v m.replacement ∨ w = v) := by
  obtain ⟨h1, hrun, hval⟩ := ServeHTTP.applyMutation_values m h _
    (ServeHTTP.addValues_mutate m re hmut hre) (by simp [hmut]) hsrc
  refine ⟨h1, hrun, hval, ?_⟩
  intro i v hi hv
  rw [hval, List.getElem?_map, hi]
  refine ⟨_, rfl, ?_⟩
  by_cases hr : P.ReplaceAllString re v m.replacement = ""
  · simp [hr, hv]
  · simp [hr]

/-- The witness of C6: `Location: http://test:1000` with `^http://(.+)$ -> https://$1`. -/
theorem applyMutation_written_values_witness :
    (Header.empty.Add "Location" "http://test:1000").Values httpsRule.oldName =
      ["http://test:1000"] ∧
    Rx.pkg.ReplaceAllString (Rx.compiled "^http://(.+)$") "http://test:1000"
      httpsRule.replacement = "https://test:1000" ∧
    ∃ h1, ServeHTTP.applyMutation httpsRule (Header.empty.Add "Location" "http://test:1000") =
        some h1 ∧
      h1.Values (if httpsRule.newName = "" then httpsRule.oldName else httpsRule.newName) =
        ((Header.empty.Add "Location" "http://test:1000").Values httpsRule.oldName).map (fun v =>
          if Rx.pkg.ReplaceAllString (Rx.compiled "^http://(.+)$") v httpsRule.replacement = ""
          then v
          else Rx.pkg.ReplaceAllString (Rx.compiled "^http://(.+)$") v httpsRule.replacement) ∧
      ∀ (i : Nat) (v : String),
        ((Header.empty.Add "Location" "http://test:1000").Values httpsRule.oldName)[i]? = some v →
        v ≠ "" →
        ∃ w, (h1.Values (if httpsRule.newName = "" then httpsRule.oldName
            else httpsRule.newName))[i]? = some w ∧
          w ≠ "" ∧
          (w = Rx.pkg.ReplaceAllString (Rx.compiled "^http://(.+)$") v httpsRule.replacement ∨
            w = v) :=
  ⟨by decide, by decide,
    applyMutation_written_values httpsRule (Rx.compiled "^http://(.+)$")
      (Header.empty.Add "Location" "http://test:1000") rfl rfl (by decide)⟩

/-- C10: a rule that is skipped changes nothing: when the rule has neither a
destination name nor a pattern, or when no value is stored under its source
name, the pass goes on with the header map it had, and does not fail. -/
theorem applyMutation_skip {P : RegexpPkg} (m : mutation P) (h : Header)
    (hskip : (m.newName = "" ∧ m.mutate = false) ∨ h.Values m.oldName = []) :
    ServeHTTP.applyMutation m h = some h := by
  unfold ServeHTTP.applyMutation
  rcases hskip with hnoop | hnone
  · rw [if_pos hnoop]
  · split
    · rfl
    · simp [hnone]

/-- The witness of C10: a rule on the absent header `Location` leaves the
values under `Host` and `X-Host` as they were. -/
theorem applyMutation_skip_witness :
    hostHeaderWithXHost.Values fooBarRule.oldName = [] ∧
    ServeHTTP.applyMutation fooBarRule hostHeaderWithXHost = some hostHeaderWithXHost ∧
    ServeHTTP.applyMutation noopRule hostHeader = some hostHeader :=
  ⟨by decide, applyMutation_skip fooBarRule hostHeaderWithXHost (Or.inr (by decide)),
    applyMutation_skip noopRule hostHeader (Or.inl ⟨rfl, rfl⟩)⟩

/-! ## ServeHTTP: the from-URL rules -/

/-- One from-URL rule with a pattern adds one value under its destination. -/
theorem ServeHTTP.applyFromUrlMutation_eq {P : RegexpPkg} (url : String)
    (m : fromUrlMutation P) (re : P.Regexp) (h : Header) (hre : m.regex = some re) :
    ServeHTTP.applyFromUrlMutation url m h =
      some (h.Add m.newName (if P.ReplaceAllString re url m.replacement = "" then url
        else P.ReplaceAllString re url m.replacement)) := by
  unfold ServeHTTP.applyFromUrlMutation
  simp only [hre, ne_eq, ite_not]
  split <;> rfl

/-- What the from-URL loop leaves under each key of the map. -/
theorem ServeHTTP.applyFromUrlMutations_key {P : RegexpPkg} (url : String)
    (ms : List (fromUrlMutation P)) (h : Header) (hwf : ∀ m ∈ ms, m.regex ≠ none) :
    ∃ h1, ServeHTTP.applyFromUrlMutations url ms h = some h1 ∧
      ∀ k : String,
        h1 k =
          if (ms.filter (fun m => CanonicalMIMEHeaderKey m.newName = k)).isEmpty then h k
          else some ((h k).getD [] ++
            (ms.filter (fun m => CanonicalMIMEHeaderKey m.newName = k)).filterMap (fun m =>
              m.regex.map (fun re =>
                if P.ReplaceAllString re url m.replacement = "" then url
                else P.ReplaceAllString re url m.replacement))) := by
  induction ms generalizing h with
  | nil => exact ⟨h, rfl, fun k => by simp⟩
  | cons m rest ih =>
    have hm : m.regex ≠ none := hwf m (List.mem_cons_self m rest)
    obtain ⟨re, hre⟩ := Option.ne_none_iff_exists'.mp hm
    obtain ⟨h1, hrun, hkey⟩ := ih (h.Add m.newName
      (if P.ReplaceAllString re url m.replacement = "" then url
        else P.ReplaceAllString re url m.replacement))
      (fun x hx => hwf x (List.mem_cons_of_mem m hx))
    refine ⟨h1, ?_, ?_⟩
    · rw [ServeHTTP.applyFromUrlMutations, ServeHTTP.applyFromUrlMutation_eq url m re h hre]
      exact hrun
    · intro k
      rw [hkey k]
      by_cases hk : CanonicalMIMEHeaderKey m.newName = k
      · have hadd : (h.Add m.newName
            (if P.ReplaceAllString re url m.replacement = "" then url
              else P.ReplaceAllString re url m.replacement)) k =
            some ((h k).getD [] ++ [if P.ReplaceAllString re url m.replacement = "" then url
              else P.ReplaceAllString re url m.replacement]) := by
          simp [Header.Add, hk]
        have hf : (m :: rest).filter (fun m => CanonicalMIMEHeaderKey m.newName = k) =
            m :: rest.filter (fun m => CanonicalMIMEHeaderKey m.newName = k) := by
          simp [List.filter_cons, hk]
        rw [hadd, hf]
        cases hfr : rest.filter (fun m => decide (CanonicalMIMEHeaderKey m.newName = k)) with
        | nil => simp [hre]
        | cons x xs => simp [hre]
      · have hk1 : ¬ k = CanonicalMIMEHeaderKey m.newName := fun e => hk e.symm
        have hadd : (h.Add m.newName
            (if P.ReplaceAllString re url m.replacement = "" then url
              else P.ReplaceAllString re url m.replacement)) k = h k := by
          simp [Header.Add, hk1]
        have hf : (m :: rest).filter (fun m => CanonicalMIMEHeaderKey m.newName = k) =
            rest.filter (fun m => CanonicalMIMEHeaderKey m.newName = k) := by
          simp [List.filter_cons, hk]
        rw [hadd, hf]

/-- C7: the from-URL stage only appends: every value list of the map keeps its
values as a prefix of what it holds afterwards, and under a destination name
there are as many new values as there are from-URL rules with that
destination, in the order of the rules. -/
theorem applyFromUrlMutations_only_appends {P : RegexpPkg} (url : String)
    (ms : List (fromUrlMutation P)) (h : Header) (hwf : ∀ m ∈ ms, m.regex ≠ none) :
    ∃ h1, ServeHTTP.applyFromUrlMutations url ms h = some h1 ∧
      (∀ (k : String) (vs : List String), h k = some vs → ∃ ws, h1 k = some (vs ++ ws)) ∧
      (∀ D : String, h.Values D <+: h1.Values D) ∧
      (∀ D : String, (h1.Values D).length = (h.Values D).length +
        ms.countP (fun m => CanonicalMIMEHeaderKey m.newName = CanonicalMIMEHeaderKey D)) ∧
      (∀ D : String, h1.Values D = h.Values D ++
        (ms.filter (fun m =>
          CanonicalMIMEHeaderKey m.newName = CanonicalMIMEHeaderKey D)).filterMap (fun m =>
            m.regex.map (fun re =>
              if P.ReplaceAllString re url m.replacement = "" then url
              else P.ReplaceAllString re url m.replacement))) := by
  obtain ⟨h1, hrun, hkey⟩ := ServeHTTP.applyFromUrlMutations_key url ms h hwf
  have hval : ∀ D : String, h1.Values D = h.Values D ++
      (ms.filter (fun m =>
        CanonicalMIMEHeaderKey m.newName = CanonicalMIMEHeaderKey D)).filterMap (fun m =>
          m.regex.map (fun re =>
            if P.ReplaceAllString re url m.replacement = "" then url
            else P.ReplaceAllString re url m.replacement)) := by
    intro D
    unfold Header.Values
    rw [hkey]
    split
    · rename_i hnil
      simp [List.isEmpty_iff.mp hnil]
    · simp
  have hlen : ∀ l : List (fromUrlMutation P), (∀ m ∈ l, m.regex ≠ none) →
      (l.filterMap (fun m => m.regex.map (fun re =>
        if P.ReplaceAllString re url m.replacement = "" then url
        else P.ReplaceAllString re url m.replacement))).length = l.length := by
    intro l hl
    induction l with
    | nil => rfl
    | cons m rest ih =>
      obtain ⟨re, hre⟩ := Option.ne_none_iff_exists'.mp (hl m (List.mem_cons_self m rest))
      simp only [List.filterMap_cons, hre, Option.map_some', List.length_cons]
      rw [ih (fun x hx => hl x (List.mem_cons_of_mem m hx))]
  refine ⟨h1, hrun, ?_, ?_, ?_, hval⟩
  · intro k vs hk
    rw [hkey k, hk]
    split
    · exact ⟨[], by simp⟩
    · exact ⟨_, rfl⟩
  · intro D
    rw [hval D]
    exact List.prefix_append _ _
  · intro D
    rw [hval D, List.length_append, hlen _ (fun m hm => hwf m (List.mem_filter.mp hm).1),
      List.countP_eq_length_filter]

/-- The witness of C7: two from-URL rules with the destination `New_Header` add
two values, in the order of the rules, and `Host` keeps its value. -/
theorem applyFromUrlMutations_only_appends_witness :
    (∀ m ∈ [urlPartsRule, urlSuffixRule], m.regex ≠ none) ∧
    (ServeHTTP.applyFromUrlMutations (fullRequestURL testRequest)
        [urlPartsRule, urlSuffixRule] hostHeader).map
      (fun h1 => (h1.Values "Host", h1.Values "New_Header")) =
      some (["example.com"], ["example-test", "http://example.com/test"]) ∧
    ∃ h1, ServeHTTP.applyFromUrlMutations (fullRequestURL testRequest)
        [urlPartsRule, urlSuffixRule] hostHeader = some h1 ∧
      (∀ D : String, hostHeader.Values D <+: h1.Values D) ∧
      (∀ D : String, (h1.Values D).length = (hostHeader.Values D).length +
        [urlPartsRule, urlSuffixRule].countP
          (fun m => CanonicalMIMEHeaderKey m.newName = CanonicalMIMEHeaderKey D)) :=
  have hwf : ∀ m ∈ [urlPartsRule, urlSuffixRule], m.regex ≠ none := by
    intro m hm
    simp only [List.mem_cons, List.mem_singleton, List.not_mem_nil, or_false] at hm
    rcases hm with rfl | rfl <;> simp [urlPartsRule, urlSuffixRule]
  ⟨hwf, by decide,
    match applyFromUrlMutations_only_appends (fullRequestURL testRequest)
      [urlPartsRule, urlSuffixRule] hostHeader hwf with
    | ⟨h1, hrun, _, hpre, hcount, _⟩ => ⟨h1, hrun, hpre, hcount⟩⟩

/-- C8: a from-URL rule adds exactly one value under its destination name, and
touches no other key: the replacement result on the canonical URL of the
request when that result is not empty, the canonical URL itself when it is
empty, and so the canonical URL when the pattern does not match it. -/
theorem applyFromUrlMutation_appends_one {P : RegexpPkg} (req : Request)
    (m : fromUrlMutation P) (re : P.Regexp) (h : Header) (hre : m.regex = some re) :
    ∃ h1, ServeHTTP.applyFromUrlMutation (fullRequestURL req) m h = some h1 ∧
      h1.Values m.newName = h.Values m.newName ++
        [if P.ReplaceAllString re (fullRequestURL req) m.replacement = "" then fullRequestURL req
         else P.ReplaceAllString re (fullRequestURL req) m.replacement] ∧
      (∀ k : String, k ≠ CanonicalMIMEHeaderKey m.newName → h1 k = h k) ∧
      (P.MatchString re (fullRequestURL req) = false →
        h1.Values m.newName = h.Values m.newName ++ [fullRequestURL req]) := by
  refine ⟨_, ServeHTTP.applyFromUrlMutation_eq (fullRequestURL req) m re h hre, ?_, ?_, ?_⟩
  · rw [Header.Values_Add_self]
  · intro k hk
    simp [Header.Add, hk]
  · intro hno
    rw [Header.Values_Add_self, P.replaceAll_of_no_match re _ m.replacement hno]
    simp

/-- The witness of C8: on `http://example.com/test` the rule
`^http://(.+)\\.com/(.+)$ -> $1-$2` adds `example-test`. -/
theorem applyFromUrlMutation_appends_one_witness :
    fullRequestURL testRequest = "http://example.com/test" ∧
    (ServeHTTP.applyFromUrlMutation (fullRequestURL testRequest) urlPartsRule hostHeader).map
      (fun h1 => h1.Values "New_Header") = some ["example-test"] ∧
    ∃ h1, ServeHTTP.applyFromUrlMutation (fullRequestURL testRequest) urlPartsRule hostHeader =
        some h1 ∧
      h1.Values urlPartsRule.newName = hostHeader.Values urlPartsRule.newName ++
        [if Rx.pkg.ReplaceAllString (Rx.compiled "^http://(.+)\\.com/(.+)$")
            (fullRequestURL testRequest) urlPartsRule.replacement = ""
         then fullRequestURL testRequest
         else Rx.pkg.ReplaceAllString (Rx.compiled "^http://(.+)\\.com/(.+)$")
            (fullRequestURL testRequest) urlPartsRule.replacement] ∧
      (∀ k : String, k ≠ CanonicalMIMEHeaderKey urlPartsRule.newName → h1 k = hostHeader k) ∧
      (Rx.pkg.MatchString (Rx.compiled "^http://(.+)\\.com/(.+)$")
          (fullRequestURL testRequest) = false →
        h1.Values urlPartsRule.newName =
          hostHeader.Values urlPartsRule.newName ++ [fullRequestURL testRequest]) :=
  ⟨by decide, by decide,
    applyFromUrlMutation_appends_one testRequest urlPartsRule
      (Rx.compiled "^http://(.+)\\.com/(.+)$") hostHeader rfl⟩

/-- The second witness of C8 in the tests: the rule `^(.+)\\.test\\.com$ -> $1`
does not match `http://example.com/test` and adds the URL itself. -/
theorem applyFromUrlMutation_no_match_test :
    Rx.pkg.MatchString (Rx.compiled "^(.+)\\.test\\.com$") (fullRequestURL testRequest) = false ∧
    (ServeHTTP.applyFromUrlMutation (fullRequestURL testRequest) urlSuffixRule hostHeader).map
      (fun h1 => h1.Values "New_Header") = some ["http://example.com/test"] :=
  ⟨by decide, by decide⟩

/-! ## fullRequestURL -/

/-- C9: `fullRequestURL` is the scheme, then `://`, then the Host field, then the
request URI, the scheme being `https` when the request has a TLS connection
state and `http` when it has none. -/
theorem fullRequestURL_eq (req : Request) :
    fullRequestURL req =
      (if req.TLS.isSome then "https" else "http") ++ "://" ++ req.Host ++
        req.URL.RequestURI := by
  unfold fullRequestURL
  cases req.TLS <;> simp

/-- The test values of C9: a plain `GET /test` on `example.com`, and the same request over TLS. -/
theorem fullRequestURL_test :
    fullRequestURL testRequest = "http://example.com/test" ∧
    fullRequestURL { testRequest with TLS := some { ServerName := "example.com" } } =
      "https://example.com/test" :=
  ⟨by decide, by decide⟩

/-! ## ServeHTTP as a whole -/

/-- An engine with one header rule and no from-URL rule applies that rule to the
request header and hands the request to the next handler. -/
theorem HeaderMutator.ServeHTTP_one_mutation {P : RegexpPkg} (hm : HeaderMutator P)
    (m : mutation P) (rw : ResponseWriter) (req : Request)
    (hms : hm.mutations = [m]) (hus : hm.fromUrlMutations = []) :
    hm.ServeHTTP rw req =
      (ServeHTTP.applyMutation m req.Header).map (fun hd => hm.next rw { req with Header := hd }) := by
  unfold HeaderMutator.ServeHTTP
  rw [hms, hus]
  simp only [ServeHTTP.applyMutations]
  cases ServeHTTP.applyMutation m req.Header with
  | none => rfl
  | some hd => rfl

/-- An engine with no header rule and one from-URL rule applies that rule, on the
canonical URL of the request. -/
theorem HeaderMutator.ServeHTTP_one_fromUrlMutation {P : RegexpPkg} (hm : HeaderMutator P)
    (m : fromUrlMutation P) (rw : ResponseWriter) (req : Request)
    (hms : hm.mutations = []) (hus : hm.fromUrlMutations = [m]) :
    hm.ServeHTTP rw req =
      (ServeHTTP.applyFromUrlMutation (fullRequestURL req) m req.Header).map
        (fun hd => hm.next rw { req with Header := hd }) := by
  cases req with
  | mk tls host uri hd0 =>
    unfold HeaderMutator.ServeHTTP
    rw [hms, hus]
    simp only [ServeHTTP.applyMutations, ServeHTTP.applyFromUrlMutations]
    cases ServeHTTP.applyFromUrlMutation
      (fullRequestURL { TLS := tls, Host := host, URL := uri, Header := hd0 }) m hd0 with
    | none => rfl
    | some hd => rfl

/-- The test table of `custom_headers_test.go` passes on the embedding. -/
theorem TestHeaderMutator_table :
    TestHeaderMutator [⟨"Location", "", "foo", "bar"⟩] []
      [("Location", ["foo", "anotherfoo"])] [("Location", ["bar", "anotherbar"])] = true ∧
    TestHeaderMutator [⟨"Location", "", "^http://(.+)$", "https://$1"⟩] []
      [("Location", ["http://test:1000"])] [("Location", ["https://test:1000"])] = true ∧
    TestHeaderMutator [⟨"Host", "X-Host", "^(.+)$", "$1"⟩] []
      [("host", ["example.com"])]
      [("Host", ["example.com"]), ("X-Host", ["example.com"])] = true ∧
    TestHeaderMutator [⟨"Host", "X-Host", "^(.+)\\.test\\.com$", "$1"⟩] []
      [("host", ["example.com.test.com"])]
      [("Host", ["example.com.test.com"]), ("X-Host", ["example.com"])] = true ∧
    TestHeaderMutator [⟨"Host", "X-Host", "", ""⟩] []
      [("host", ["example.com"])]
      [("host", ["example.com"]), ("X-Host", ["example.com"])] = true ∧
    TestHeaderMutator [⟨"Host", "X-Host", "^(.+)\\.test\\.com$", "$1"⟩] []
      [("host", ["example.com"])]
      [("host", ["example.com"]), ("X-Host", ["example.com"])] = true ∧
    TestHeaderMutator [] [⟨"New_Header", "^http://(.+)\\.com/(.+)$", "$1-$2"⟩]
      [("host", ["example.com"])]
      [("host", ["example.com"]), ("New_Header", ["example-test"])] = true ∧
    TestHeaderMutator [] [⟨"New_Header", "^(.+)\\.test\\.com$", "$1"⟩]
      [("host", ["example.com"])]
      [("host", ["example.com"]), ("New_Header", ["http://example.com/test"])] = true :=
  ⟨by decide, by decide, by decide, by decide, by decide, by decide, by decide, by decide⟩

/-! ## Letter case and canonical keys -/

theorem Char.isUpper_iff_toNat (c : Char) : c.isUpper = true ↔ 65 ≤ c.toNat ∧ c.toNat ≤ 90 := by
  unfold Char.isUpper Char.toNat
  simp only [ge_iff_le, Bool.and_eq_true, decide_eq_true_eq, UInt32.le_def, UInt32.toNat]
  rfl

theorem Char.isLower_iff_toNat (c : Char) : c.isLower = true ↔ 97 ≤ c.toNat ∧ c.toNat ≤ 122 := by
  unfold Char.isLower Char.toNat
  simp only [ge_iff_le, Bool.and_eq_true, decide_eq_true_eq, UInt32.le_def, UInt32.toNat]
  rfl

theorem Char.mem_upper_of_isUpper (c : Char) (h : c.isUpper = true) :
    c ∈ "ABCDEFGHIJKLMNOPQRSTUVWXYZ".data := by
  rw [Char.isUpper_iff_toNat] at h
  obtain ⟨h1, h2⟩ := h
  have hc : c = Char.ofNat c.toNat := (Char.ofNat_toNat c).symm
  generalize c.toNat = n at h1 h2 hc
  subst hc
  interval_cases n <;> decide

theorem Char.mem_lower_of_isLower (c : Char) (h : c.isLower = true) :
    c ∈ "abcdefghijklmnopqrstuvwxyz".data := by
  rw [Char.isLower_iff_toNat] at h
  obtain ⟨h1, h2⟩ := h
  have hc : c = Char.ofNat c.toNat := (Char.ofNat_toNat c).symm
  generalize c.toNat = n at h1 h2 hc
  subst hc
  interval_cases n <;> decide

theorem Char.toLower_of_not_isUpper (c : Char) (h : c.isUpper = false) : c.toLower = c := by
  have hn : ¬ (65 ≤ c.toNat ∧ c.toNat ≤ 90) := by
    rw [← Char.isUpper_iff_toNat]; simp [h]
  unfold Char.toLower
  simp only [ge_iff_le]
  rw [if_neg hn]

theorem Char.toUpper_of_not_isLower (c : Char) (h : c.isLower = false) : c.toUpper = c := by
  have hn : ¬ (97 ≤ c.toNat ∧ c.toNat ≤ 122) := by
    rw [← Char.isLower_iff_toNat]; simp [h]
  unfold Char.toUpper
  simp only [ge_iff_le]
  rw [if_neg hn]

/-- A property of characters that holds of the 52 letters and of every character
that is not a letter holds of all characters. -/
theorem Char.letter_cases (p : Char → Prop)
    (hupper : ∀ c ∈ "ABCDEFGHIJKLMNOPQRSTUVWXYZ".data, p c)
    (hlower : ∀ c ∈ "abcdefghijklmnopqrstuvwxyz".data, p c)
    (hother : ∀ c : Char, c.isUpper = false → c.isLower = false → p c) (c : Char) : p c := by
  cases hu : c.isUpper with
  | true => exact hupper c (Char.mem_upper_of_isUpper c hu)
  | false =>
    cases hl : c.isLower with
    | true => exact hlower c (Char.mem_lower_of_isLower c hl)
    | false => exact hother c hu hl

/-- One step of the canonicalising loop only looks at the lower-case form of the character. -/
theorem canonicalMIMEHeaderKey_step (upper : Bool) (c : Char) :
    (if upper && c.isLower then c.toUpper
      else if !upper && c.isUpper then c.toLower
      else c) = if upper then c.toLower.toUpper else c.toLower := by
  revert c
  apply Char.letter_cases
  · cases upper <;> decide
  · cases upper <;> decide
  · intro c hu hl
    cases upper <;>
      simp [hu, hl, Char.toLower_of_not_isUpper c hu, Char.toUpper_of_not_isLower c hl]

theorem canonicalMIMEHeaderKey_cons (upper : Bool) (c : Char) (cs : List Char) :
    canonicalMIMEHeaderKey upper (c :: cs) =
      (if upper then c.toLower.toUpper else c.toLower) ::
        canonicalMIMEHeaderKey ((if upper then c.toLower.toUpper else c.toLower) == '-') cs := by
  rw [canonicalMIMEHeaderKey]
  simp only [canonicalMIMEHeaderKey_step]

theorem Char.toLower_toLower (c : Char) : c.toLower.toLower = c.toLower := by
  revert c
  apply Char.letter_cases
  · decide
  · decide
  · intro c hu _
    rw [Char.toLower_of_not_isUpper c hu, Char.toLower_of_not_isUpper c hu]

theorem Char.toLower_toUpper_toLower (c : Char) : c.toLower.toUpper.toLower = c.toLower := by
  revert c
  apply Char.letter_cases
  · decide
  · decide
  · intro c hu hl
    rw [Char.toLower_of_not_isUpper c hu, Char.toUpper_of_not_isLower c hl,
      Char.toLower_of_not_isUpper c hu]

theorem validHeaderFieldByte_toLower (c : Char) :
    validHeaderFieldByte c.toLower = validHeaderFieldByte c := by
  revert c
  apply Char.letter_cases
  · decide
  · decide
  · intro c hu _
    rw [Char.toLower_of_not_isUpper c hu]

/-- The canonicalising loop changes the case of letters and nothing else. -/
theorem canonicalMIMEHeaderKey_map_toLower (upper : Bool) (cs : List Char) :
    (canonicalMIMEHeaderKey upper cs).map Char.toLower = cs.map Char.toLower := by
  induction cs generalizing upper with
  | nil => rfl
  | cons c cs ih =>
    rw [canonicalMIMEHeaderKey_cons, List.map_cons, List.map_cons, ih]
    cases upper
    · simp [Char.toLower_toLower]
    · simp [Char.toLower_toUpper_toLower]

/-- The canonicalising loop gives the same key for two spellings that differ in
the case of letters only. -/
theorem canonicalMIMEHeaderKey_congr (upper : Bool) (cs ds : List Char)
    (h : cs.map Char.toLower = ds.map Char.toLower) :
    canonicalMIMEHeaderKey upper cs = canonicalMIMEHeaderKey upper ds := by
  induction cs generalizing upper ds with
  | nil =>
    cases ds with
    | nil => rfl
    | cons d ds => simp at h
  | cons c cs ih =>
    cases ds with
    | nil => simp at h
    | cons d ds =>
      simp only [List.map_cons, List.cons.injEq] at h
      rw [canonicalMIMEHeaderKey_cons, canonicalMIMEHeaderKey_cons, h.1, ih _ ds h.2]

theorem validHeaderFieldByte_all_congr (cs ds : List Char)
    (h : cs.map Char.toLower = ds.map Char.toLower) :
    cs.all validHeaderFieldByte = ds.all validHeaderFieldByte := by
  induction cs generalizing ds with
  | nil =>
    cases ds with
    | nil => rfl
    | cons d ds => simp at h
  | cons c cs ih =>
    cases ds with
    | nil => simp at h
    | cons d ds =>
      simp only [List.map_cons, List.cons.injEq] at h
      rw [List.all_cons, List.all_cons, ih ds h.2, ← validHeaderFieldByte_toLower c, h.1,
        validHeaderFieldByte_toLower d]

/-- Two spellings of a name of token characters that differ in the case of
letters only have the same canonical key. -/
theorem CanonicalMIMEHeaderKey_congr (s t : String)
    (htoken : s.data.all validHeaderFieldByte = true)
    (hcase : s.data.map Char.toLower = t.data.map Char.toLower) :
    CanonicalMIMEHeaderKey s = CanonicalMIMEHeaderKey t := by
  have ht : t.data.all validHeaderFieldByte = true := by
    rw [← validHeaderFieldByte_all_congr s.data t.data hcase]; exact htoken
  unfold CanonicalMIMEHeaderKey
  rw [if_pos htoken, if_pos ht, canonicalMIMEHeaderKey_congr true _ _ hcase]

/-- The canonical key of a name is a spelling of that name. -/
theorem CanonicalMIMEHeaderKey_map_toLower (s : String) :
    (CanonicalMIMEHeaderKey s).data.map Char.toLower = s.data.map Char.toLower := by
  unfold CanonicalMIMEHeaderKey
  split
  · exact canonicalMIMEHeaderKey_map_toLower true s.data
  · rfl

/-- Names with the same canonical key differ in the case of letters only. -/
theorem map_toLower_eq_of_CanonicalMIMEHeaderKey_eq (s t : String)
    (h : CanonicalMIMEHeaderKey s = CanonicalMIMEHeaderKey t) :
    s.data.map Char.toLower = t.data.map Char.toLower := by
  rw [← CanonicalMIMEHeaderKey_map_toLower s, h, CanonicalMIMEHeaderKey_map_toLower t]

/-! ## The header map after a rule, key by key -/

theorem Header.foldl_Add_key (f : String → String) (D : String) (vs : List String)
    (h : Header) (k : String) :
    (vs.foldl (fun acc v => acc.Add D (f v)) h) k =
      if k = CanonicalMIMEHeaderKey D ∧ vs ≠ [] then some ((h k).getD [] ++ vs.map f)
      else h k := by
  induction vs generalizing h with
  | nil => simp
  | cons v vs ih =>
    rw [List.foldl_cons, ih]
    by_cases hk : k = CanonicalMIMEHeaderKey D
    · by_cases hvs : vs = []
      · simp [hk, hvs, Header.Add]
      · simp [hk, hvs, Header.Add]
    · simp [hk, Header.Add]

/-- The inner loop leaves every key other than the canonical key of the name it
writes under as it was. -/
theorem ServeHTTP.addValues_frame {P : RegexpPkg} (m : mutation P) (D : String)
    (vs : List String) (h0 h1 : Header) (hrun : ServeHTTP.addValues m D vs h0 = some h1)
    (k : String) (hk : k ≠ CanonicalMIMEHeaderKey D) : h1 k = h0 k := by
  induction vs generalizing h0 with
  | nil =>
    simp only [ServeHTTP.addValues, Option.some.injEq] at hrun
    rw [← hrun]
  | cons v vs ih =>
    rw [ServeHTTP.addValues] at hrun
    have hAdd : ∀ x : String, (h0.Add D x) k = h0 k := fun x => by simp [Header.Add, hk]
    cases hmut : m.mutate with
    | false =>
      simp only [hmut, Bool.false_eq_true, if_false] at hrun
      rw [ih _ hrun, hAdd]
    | true =>
      simp only [hmut, if_true] at hrun
      cases hre : m.regex with
      | none => rw [hre] at hrun; exact absurd hrun (by simp)
      | some re =>
        rw [hre] at hrun
        by_cases hmv : P.ReplaceAllString re v m.replacement = ""
        · simp only [hmv, ne_eq, not_true_eq_false, if_false] at hrun
          rw [ih _ hrun, hAdd]
        · simp only [ne_eq, hmv, not_false_eq_true, if_true] at hrun
          rw [ih _ hrun, hAdd]

/-- A rule that does not delete its source leaves every key other than the
canonical key of its destination as it was. -/
theorem ServeHTTP.applyMutation_frame {P : RegexpPkg} (m : mutation P) (h h1 : Header)
    (hdel : m.deleteSource = false) (hrun : ServeHTTP.applyMutation m h = some h1)
    (k : String) (hk : k ≠ CanonicalMIMEHeaderKey m.destination) : h1 k = h k := by
  have hk1 : k ≠ CanonicalMIMEHeaderKey (if m.newName = "" then m.oldName else m.newName) := hk
  unfold ServeHTTP.applyMutation at hrun
  by_cases hskip : m.newName = "" ∧ m.mutate = false
  · rw [if_pos hskip] at hrun
    cases hrun
    rfl
  · rw [if_neg hskip] at hrun
    simp only [hdel, Bool.false_eq_true, if_false] at hrun
    by_cases hlen : (h.Values m.oldName).length = 0
    · rw [if_pos hlen] at hrun
      cases hrun
      rfl
    · rw [if_neg hlen] at hrun
      rw [ServeHTTP.addValues_frame m _ _ _ _ hrun k hk1]
      simp [Header.Del, hk1]

/-- A rule whose pattern is there when `mutate` is set does not fail. -/
theorem ServeHTTP.applyMutation_total {P : RegexpPkg} (m : mutation P) (h : Header)
    (hwf : m.mutate = true → m.regex ≠ none) : ∃ h1, ServeHTTP.applyMutation m h = some h1 := by
  obtain ⟨f, hf⟩ := ServeHTTP.addValues_total m hwf
  unfold ServeHTTP.applyMutation
  by_cases hskip : m.newName = "" ∧ m.mutate = false
  · rw [if_pos hskip]
    exact ⟨h, rfl⟩
  · rw [if_neg hskip]
    by_cases hlen : (h.Values m.oldName).length = 0
    · exact ⟨h, by simp only [hlen, if_true]⟩
    · simp only [hlen, if_false, hf]
      exact ⟨_, rfl⟩

/-- The whole map after a rule that is applied: the destination holds the images
of the source values, the source is gone when the rule deletes it, and every
other key is as it was. -/
theorem ServeHTTP.applyMutation_key {P : RegexpPkg} (m : mutation P) (h : Header)
    (f : String → String)
    (hadd : ∀ D vs h0, ServeHTTP.addValues m D vs h0 =
      some (vs.foldl (fun acc v => acc.Add D (f v)) h0))
    (happlied : ¬ (m.newName = "" ∧ m.mutate = false)) (hsrc : h.Values m.oldName ≠ []) :
    ∃ h1, ServeHTTP.applyMutation m h = some h1 ∧ ∀ k : String,
      h1 k =
        if k = CanonicalMIMEHeaderKey m.destination then some ((h.Values m.oldName).map f)
        else if m.deleteSource = true ∧ k = CanonicalMIMEHeaderKey m.oldName then none
        else h k := by
  unfold ServeHTTP.applyMutation
  rw [if_neg happlied, if_neg (by simpa using hsrc)]
  simp only [hadd]
  refine ⟨_, rfl, ?_⟩
  intro k
  rw [Header.foldl_Add_key]
  unfold mutation.destination
  by_cases hk : k = CanonicalMIMEHeaderKey (if m.newName = "" then m.oldName else m.newName)
  · simp [hk, hsrc, Header.Del]
  · cases hdel : m.deleteSource with
    | false => simp [hk, Header.Del]
    | true =>
      by_cases hk2 : k = CanonicalMIMEHeaderKey m.oldName
      · subst hk2
        simp [hk, Header.Del]
      · simp [hk, hk2, Header.Del]

/-! ## The header rules as a list -/

theorem ServeHTTP.applyMutations_append {P : RegexpPkg} (xs ys : List (mutation P))
    (h : Header) :
    ServeHTTP.applyMutations (xs ++ ys) h =
      (ServeHTTP.applyMutations xs h).bind (ServeHTTP.applyMutations ys) := by
  induction xs generalizing h with
  | nil => rfl
  | cons x xs ih =>
    simp only [List.cons_append, ServeHTTP.applyMutations]
    cases ServeHTTP.applyMutation x h with
    | none => rfl
    | some h1 => exact ih h1

/-- A list of rules whose patterns are there when `mutate` is set does not fail. -/
theorem ServeHTTP.applyMutations_total {P : RegexpPkg} (ms : List (mutation P)) (h : Header)
    (hwf : ∀ m ∈ ms, m.mutate = true → m.regex ≠ none) :
    ∃ h1, ServeHTTP.applyMutations ms h = some h1 := by
  induction ms generalizing h with
  | nil => exact ⟨h, rfl⟩
  | cons m ms ih =>
    obtain ⟨h1, hrun⟩ := ServeHTTP.applyMutation_total m h (hwf m (List.mem_cons_self m ms))
    obtain ⟨h2, hrest⟩ := ih h1 (fun x hx => hwf x (List.mem_cons_of_mem m hx))
    exact ⟨h2, by rw [ServeHTTP.applyMutations, hrun]; exact hrest⟩

/-- Rules that do not delete their source and do not write under the key `k`
leave that key as it was. -/
theorem ServeHTTP.applyMutations_frame {P : RegexpPkg} (ms : List (mutation P))
    (h h1 : Header) (k : String)
    (hms : ∀ m ∈ ms, m.deleteSource = false ∧ CanonicalMIMEHeaderKey m.destination ≠ k)
    (hrun : ServeHTTP.applyMutations ms h = some h1) : h1 k = h k := by
  induction ms generalizing h with
  | nil =>
    simp only [ServeHTTP.applyMutations, Option.some.injEq] at hrun
    rw [← hrun]
  | cons m ms ih =>
    rw [ServeHTTP.applyMutations] at hrun
    cases hstep : ServeHTTP.applyMutation m h with
    | none => rw [hstep] at hrun; exact absurd hrun (by simp)
    | some h2 =>
      rw [hstep] at hrun
      have hm := hms m (List.mem_cons_self m ms)
      rw [ih h2 (fun x hx => hms x (List.mem_cons_of_mem m hx)) hrun]
      exact ServeHTTP.applyMutation_frame m h h2 hm.1 hstep k (fun e => hm.2 e.symm)

/-! ## The rules New compiles -/

/-- The header rules `New` compiles, entry by entry. -/
theorem New.mutations_ok (P : RegexpPkg) (ms : List Mutation) (mts : List (mutation P))
    (h : New.mutations P ms = .ok mts) :
    List.Forall₂ (fun (m : Mutation) (mt : mutation P) =>
      mt.oldName = m.Header ∧ mt.newName = m.NewName ∧ mt.deleteSource = false ∧
      (mt.mutate = true ↔ m.Regex ≠ "") ∧
      (mt.mutate = true → ∃ re, P.Compile m.Regex = .ok re ∧ mt.regex = some re ∧
        mt.replacement = m.Replacement ∧ mt.replacement ≠ "") ∧
      (mt.mutate = false → mt.regex = none ∧ mt.replacement = "")) ms mts := by
  induction ms generalizing mts with
  | nil =>
    simp only [New.mutations, Except.ok.injEq] at h
    subst h
    exact List.Forall₂.nil
  | cons m rest ih =>
    rw [New.mutations] at h
    by_cases hre : m.Regex = ""
    · simp only [hre, ne_eq, not_true_eq_false, if_false] at h
      cases hrest : New.mutations P rest with
      | error e => rw [hrest] at h; exact absurd h (by simp)
      | ok tl =>
        rw [hrest] at h
        simp only [Except.ok.injEq] at h
        subst h
        exact List.Forall₂.cons (by simp [hre]) (ih tl hrest)
    · simp only [ne_eq, hre, not_false_eq_true, if_true] at h
      cases hc : P.Compile m.Regex with
      | error err => rw [hc] at h; exact absurd h (by simp)
      | ok regex =>
        rw [hc] at h
        by_cases hrep : m.Replacement = ""
        · simp only [hrep, if_true] at h
          exact absurd h (by simp)
        · simp only [hrep, if_false] at h
          cases hrest : New.mutations P rest with
          | error e => rw [hrest] at h; exact absurd h (by simp)
          | ok tl =>
            rw [hrest] at h
            simp only [Except.ok.injEq] at h
            subst h
            exact List.Forall₂.cons (by simp [hre, hrep, hc]) (ih tl hrest)

/-- The from-URL rules `New` compiles, entry by entry. -/
theorem New.fromUrlMutations_ok (P : RegexpPkg) (ms : List FromUrlMutation)
    (mts : List (fromUrlMutation P)) (h : New.fromUrlMutations P ms = .ok mts) :
    List.Forall₂ (fun (m : FromUrlMutation) (mt : fromUrlMutation P) =>
      mt.newName = m.NewName ∧
      ∃ re, P.Compile m.Regex = .ok re ∧ mt.regex = some re ∧
        mt.replacement = m.Replacement ∧ mt.replacement ≠ "") ms mts := by
  induction ms generalizing mts with
  | nil =>
    simp only [New.fromUrlMutations, Except.ok.injEq] at h
    subst h
    exact List.Forall₂.nil
  | cons m rest ih =>
    rw [New.fromUrlMutations] at h
    by_cases hre : m.Regex = ""
    · simp only [hre, if_true] at h
      exact absurd h (by simp)
    · simp only [hre, if_false] at h
      cases hc : P.Compile m.Regex with
      | error err => rw [hc] at h; exact absurd h (by simp)
      | ok regex =>
        rw [hc] at h
        by_cases hrep : m.Replacement = ""
        · simp only [hrep, if_true] at h
          exact absurd h (by simp)
        · simp only [hrep, if_false] at h
          cases hrest : New.fromUrlMutations P rest with
          | error e => rw [hrest] at h; exact absurd h (by simp)
          | ok tl =>
            rw [hrest] at h
            simp only [Except.ok.injEq] at h
            subst h
            exact List.Forall₂.cons (by simp [hrep, hc]) (ih tl hrest)

/-- The engine `New` returns holds the two compiled rule lists, the next handler
and the name. -/
theorem New_ok (P : RegexpPkg) (next : Handler) (config : Config) (name : String)
    (hm : HeaderMutator P) (h : New P next config name = .ok hm) :
    New.mutations P config.Mutations = .ok hm.mutations ∧
    New.fromUrlMutations P config.FromUrlMutations = .ok hm.fromUrlMutations ∧
    hm.next = next ∧ hm.name = name := by
  unfold New at h
  cases h1 : New.mutations P config.Mutations with
  | error e => rw [h1] at h; exact absurd h (by simp)
  | ok ms =>
    rw [h1] at h
    cases h2 : New.fromUrlMutations P config.FromUrlMutations with
    | error e => rw [h2] at h; exact absurd h (by simp)
    | ok us =>
      rw [h2] at h
      simp only [Except.ok.injEq] at h
      subst h
      exact ⟨rfl, rfl, rfl, rfl⟩

/-- What holds of every pair of a relation holds of every element on the right. -/
theorem forall₂_right_of_imp {α β : Type} {R : α → β → Prop} {p : β → Prop}
    {l1 : List α} {l2 : List β} (h : List.Forall₂ R l1 l2) (himp : ∀ a b, R a b → p b) :
    ∀ b ∈ l2, p b := by
  induction h with
  | nil => intro b hb; cases hb
  | cons hab _ ih =>
    intro b hb
    rcases List.mem_cons.mp hb with rfl | hb
    · exact himp _ _ hab
    · exact ih b hb

/-- Every rule of an engine built by `New` has `deleteSource` unset and has its
pattern when it is asked to replace. -/
theorem New_rules (P : RegexpPkg) (next : Handler) (config : Config) (name : String)
    (hm : HeaderMutator P) (h : New P next config name = .ok hm) :
    (∀ m ∈ hm.mutations, m.deleteSource = false ∧ (m.mutate = true → m.regex ≠ none)) ∧
    (∀ u ∈ hm.fromUrlMutations, u.regex ≠ none) := by
  obtain ⟨h1, h2, _, _⟩ := New_ok P next config name hm h
  constructor
  · refine forall₂_right_of_imp
      (p := fun mt => mt.deleteSource = false ∧ (mt.mutate = true → mt.regex ≠ none))
      (New.mutations_ok P _ _ h1) ?_
    rintro m mt ⟨_, _, hdel, _, hmut, _⟩
    refine ⟨hdel, fun ht => ?_⟩
    obtain ⟨re, _, hre, _⟩ := hmut ht
    simp [hre]
  · refine forall₂_right_of_imp (p := fun mt => mt.regex ≠ none)
      (New.fromUrlMutations_ok P _ _ h2) ?_
    rintro m mt ⟨_, re, _, hre, _⟩
    simp [hre]

/-- The engine of the fixtures is the one `New` returns. -/
theorem New_testConfig : New Rx.pkg countingNext testConfig "mutateHeaders" = .ok testMutator :=
  rfl

/-! ## Rule order -/

/-- C11, as the claim states it, fails: with `Host -> X-Host` first and
`Location -> X-Host` second, on a request without `Location`, the later rule is
skipped and `X-Host` keeps what the earlier rule wrote, while the later rule
alone writes nothing under `X-Host`. -/
theorem applyMutations_later_rule_skipped :
    hostCloneRule.destination = "X-Host" ∧ locationCloneRule.destination = "X-Host" ∧
    (ServeHTTP.applyMutations [hostCloneRule, locationCloneRule] hostHeader).map
      (fun h => h.Values "X-Host") = some ["example.com"] ∧
    (ServeHTTP.applyMutation locationCloneRule hostHeader).map
      (fun h => h.Values "X-Host") = some [] := by
  decide

/-- C11, amended: when the later rule is applied (it has a destination name or a
pattern, and its source header holds a value), no rule before it writes under
its source header, and no rule after it writes under its destination D, the
values under D after the pass are those the later rule alone leaves under D,
whatever the earlier rules wrote there. The rules are as `New` builds them:
`deleteSource` unset and the pattern there when `mutate` is set. -/
theorem applyMutations_later_rule_alone {P : RegexpPkg} (before after : List (mutation P))
    (m2 : mutation P) (h : Header)
    (hbefore : ∀ m ∈ before, m.deleteSource = false ∧ (m.mutate = true → m.regex ≠ none) ∧
      CanonicalMIMEHeaderKey m.destination ≠ CanonicalMIMEHeaderKey m2.oldName)
    (hafter : ∀ m ∈ after, m.deleteSource = false ∧ (m.mutate = true → m.regex ≠ none) ∧
      CanonicalMIMEHeaderKey m.destination ≠ CanonicalMIMEHeaderKey m2.destination)
    (hwf : m2.mutate = true → m2.regex ≠ none)
    (happlied : m2.newName ≠ "" ∨ m2.mutate = true)
    (hsrc : h.Values m2.oldName ≠ []) :
    ∃ hpass halone, ServeHTTP.applyMutations (before ++ m2 :: after) h = some hpass ∧
      ServeHTTP.applyMutation m2 h = some halone ∧
      hpass.Values m2.destination = halone.Values m2.destination := by
  obtain ⟨f, hf⟩ := ServeHTTP.addValues_total m2 hwf
  have hgo : ¬ (m2.newName = "" ∧ m2.mutate = false) := by
    rintro ⟨h1, h2⟩
    rcases happlied with h | h
    · exact h h1
    · rw [h2] at h; exact Bool.false_ne_true h
  obtain ⟨hb, hrunb⟩ := ServeHTTP.applyMutations_total before h (fun m hm => (hbefore m hm).2.1)
  have hkeep : hb.Values m2.oldName = h.Values m2.oldName := by
    unfold Header.Values
    rw [ServeHTTP.applyMutations_frame before h hb _
      (fun m hm => ⟨(hbefore m hm).1, (hbefore m hm).2.2⟩) hrunb]
  obtain ⟨hmid, hrunm, hvalm⟩ := ServeHTTP.applyMutation_values m2 hb f hf hgo (hkeep ▸ hsrc)
  obtain ⟨halone, hruna, hvala⟩ := ServeHTTP.applyMutation_values m2 h f hf hgo hsrc
  obtain ⟨hpass, hrunp⟩ := ServeHTTP.applyMutations_total after hmid
    (fun m hm => (hafter m hm).2.1)
  have hlast : hpass.Values m2.destination = hmid.Values m2.destination := by
    unfold Header.Values
    rw [ServeHTTP.applyMutations_frame after hmid hpass _
      (fun m hm => ⟨(hafter m hm).1, (hafter m hm).2.2⟩) hrunp]
  refine ⟨hpass, halone, ?_, hruna, ?_⟩
  · rw [ServeHTTP.applyMutations_append, hrunb, Option.some_bind, ServeHTTP.applyMutations,
      hrunm]
    exact hrunp
  · rw [hlast]
    show hmid.Values (if m2.newName = "" then m2.oldName else m2.newName) =
      halone.Values (if m2.newName = "" then m2.oldName else m2.newName)
    rw [hvalm, hvala, hkeep]

/-- The witness of C11: `Host -> X-Host` then `Location -> X-Host` on a request
with both headers leaves `X-Host: foo`, as the later rule alone does. -/
theorem applyMutations_later_rule_alone_witness :
    (ServeHTTP.applyMutations ([hostCloneRule] ++ locationCloneRule :: []) hostLocationHeader).map
      (fun h => h.Values "X-Host") = some ["foo"] ∧
    (ServeHTTP.applyMutation hostCloneRule hostLocationHeader).map
      (fun h => h.Values "X-Host") = some ["example.com"] ∧
    ∃ hpass halone,
      ServeHTTP.applyMutations ([hostCloneRule] ++ locationCloneRule :: []) hostLocationHeader =
        some hpass ∧
      ServeHTTP.applyMutation locationCloneRule hostLocationHeader = some halone ∧
      hpass.Values locationCloneRule.destination = halone.Values locationCloneRule.destination :=
  ⟨by decide, by decide,
    applyMutations_later_rule_alone [hostCloneRule] [] locationCloneRule hostLocationHeader
      (fun m hm => by
        rw [List.mem_singleton.mp hm]
        exact ⟨rfl, fun hmut => absurd hmut (by decide), by decide⟩)
      (fun m hm => by cases hm)
      (fun hmut => absurd hmut (by decide)) (Or.inl (by decide)) (by decide)⟩

/-! ## Spellings of a header name -/

theorem Header.Values_congr (h : Header) (key key1 : String)
    (hkey : CanonicalMIMEHeaderKey key = CanonicalMIMEHeaderKey key1) :
    h.Values key = h.Values key1 := by
  unfold Header.Values
  rw [hkey]

theorem Header.Del_congr (h : Header) (key key1 : String)
    (hkey : CanonicalMIMEHeaderKey key = CanonicalMIMEHeaderKey key1) :
    h.Del key = h.Del key1 := by
  unfold Header.Del
  rw [hkey]

theorem Header.Add_congr (h : Header) (key key1 value : String)
    (hkey : CanonicalMIMEHeaderKey key = CanonicalMIMEHeaderKey key1) :
    h.Add key value = h.Add key1 value := by
  unfold Header.Add
  rw [hkey]

/-- The inner loop looks at the name it writes under through its canonical key,
and at the rule through `mutate`, `regex` and `replacement`. -/
theorem ServeHTTP.addValues_congr {P : RegexpPkg} (m m1 : mutation P) (D D1 : String)
    (vs : List String) (h : Header)
    (hD : CanonicalMIMEHeaderKey D = CanonicalMIMEHeaderKey D1)
    (hmut : m.mutate = m1.mutate) (hre : m.regex = m1.regex)
    (hrep : m.replacement = m1.replacement) :
    ServeHTTP.addValues m D vs h = ServeHTTP.addValues m1 D1 vs h := by
  induction vs generalizing h with
  | nil => rfl
  | cons v vs ih =>
    rw [ServeHTTP.addValues, ServeHTTP.addValues, ← hmut, ← hre, ← hrep]
    simp only [Header.Add_congr _ D D1 _ hD, ih]

/-- A rule looks at its two names through their canonical keys and through
`newName` being empty or not. -/
theorem ServeHTTP.applyMutation_congr {P : RegexpPkg} (m m1 : mutation P) (h : Header)
    (hold : CanonicalMIMEHeaderKey m.oldName = CanonicalMIMEHeaderKey m1.oldName)
    (hnew : CanonicalMIMEHeaderKey m.newName = CanonicalMIMEHeaderKey m1.newName)
    (hempty : m.newName = "" ↔ m1.newName = "")
    (hdel : m.deleteSource = m1.deleteSource) (hmut : m.mutate = m1.mutate)
    (hre : m.regex = m1.regex) (hrep : m.replacement = m1.replacement) :
    ServeHTTP.applyMutation m h = ServeHTTP.applyMutation m1 h := by
  have hdest : CanonicalMIMEHeaderKey (if m.newName = "" then m.oldName else m.newName) =
      CanonicalMIMEHeaderKey (if m1.newName = "" then m1.oldName else m1.newName) := by
    by_cases he : m.newName = ""
    · rw [if_pos he, if_pos (hempty.mp he)]; exact hold
    · rw [if_neg he, if_neg (fun e => he (hempty.mpr e))]; exact hnew
  unfold ServeHTTP.applyMutation
  simp only [← hdel, ← hmut, ← Header.Values_congr h _ _ hold, ← Header.Del_congr h _ _ hold,
    ← Header.Del_congr _ _ _ hdest,
    ← ServeHTTP.addValues_congr m m1 _ _ _ _ hdest hmut hre hrep, hempty]

theorem String.eq_empty_iff_of_map_toLower (s t : String)
    (h : s.data.map Char.toLower = t.data.map Char.toLower) : s = "" ↔ t = "" := by
  have hlen : s.data.length = t.data.length := by
    have := congrArg List.length h
    simpa using this
  have hs : ∀ x : String, x = "" ↔ x.data.length = 0 := by
    intro x
    constructor
    · intro e; rw [e]; rfl
    · intro e
      apply String.ext
      exact List.length_eq_zero.mp e
  rw [hs s, hs t, hlen]

/-- C12, as the claim states it, fails for a name with a space: a value added
under `my header` is found by the rule whose source is spelled `my header` and
not by the rule whose source is spelled `My Header`. -/
theorem applyMutation_spelling_counterexample :
    "my header".data.map Char.toLower = "My Header".data.map Char.toLower ∧
    (ServeHTTP.applyMutation (spacedNameRule "my header") spacedNameHeader).map
      (fun h => h.Values "X-Out") = some ["v"] ∧
    (ServeHTTP.applyMutation (spacedNameRule "My Header") spacedNameHeader).map
      (fun h => h.Values "X-Out") = some [] := by
  decide

/-- C12, amended: for a rule whose source and destination names are made of
header token characters, a spelling of either name that differs in the case of
letters only gives the same result on every header map; and adding a value or
reading the values under either spelling of such a name is the same. -/
theorem applyMutation_case_insensitive {P : RegexpPkg} (m : mutation P)
    (oldName1 newName1 : String) (h : Header)
    (hold_token : m.oldName.data.all validHeaderFieldByte = true)
    (hnew_token : m.newName.data.all validHeaderFieldByte = true)
    (hold : m.oldName.data.map Char.toLower = oldName1.data.map Char.toLower)
    (hnew : m.newName.data.map Char.toLower = newName1.data.map Char.toLower) :
    ServeHTTP.applyMutation { m with oldName := oldName1, newName := newName1 } h =
      ServeHTTP.applyMutation m h ∧
    (∀ value : String, h.Add oldName1 value = h.Add m.oldName value) ∧
    h.Values oldName1 = h.Values m.oldName ∧
    h.Values newName1 = h.Values m.newName := by
  have h1 := CanonicalMIMEHeaderKey_congr m.oldName oldName1 hold_token hold
  have h2 := CanonicalMIMEHeaderKey_congr m.newName newName1 hnew_token hnew
  refine ⟨?_, fun value => (Header.Add_congr h _ _ value h1).symm,
    (Header.Values_congr h _ _ h1).symm, (Header.Values_congr h _ _ h2).symm⟩
  exact (ServeHTTP.applyMutation_congr m { m with oldName := oldName1, newName := newName1 } h
    h1 h2 (String.eq_empty_iff_of_map_toLower _ _ hnew) rfl rfl rfl rfl).symm

/-- The witness of C12: the rule `Host -> X-Host` spelled `host -> x-host` finds
the value added under `host`. -/
theorem applyMutation_case_insensitive_witness :
    (ServeHTTP.applyMutation { hostCloneRule with oldName := "host", newName := "x-host" }
      hostHeader).map (fun h => h.Values "X-HOST") = some ["example.com"] ∧
    (ServeHTTP.applyMutation { hostCloneRule with oldName := "host", newName := "x-host" }
        hostHeader = ServeHTTP.applyMutation hostCloneRule hostHeader ∧
      (∀ value : String, hostHeader.Add "host" value = hostHeader.Add hostCloneRule.oldName value) ∧
      hostHeader.Values "host" = hostHeader.Values hostCloneRule.oldName ∧
      hostHeader.Values "x-host" = hostHeader.Values hostCloneRule.newName) :=
  ⟨by decide,
    applyMutation_case_insensitive hostCloneRule "host" "x-host" hostHeader (by decide)
      (by decide) (by decide) (by decide)⟩

/-! ## The engines New builds -/

/-- C13: a rule of an engine built by `New` touches only its destination: every
key other than the canonical key of the destination keeps its value list, so
every header whose name differs from the destination, letter case aside, is
unchanged; when source and destination differ the source keeps its values,
and a rule that is applied leaves as many values under the destination as
the source has. -/
theorem applyMutation_touches_only_destination {P : RegexpPkg} (next : Handler)
    (config : Config) (name : String) (hm : HeaderMutator P)
    (hnew : New P next config name = .ok hm) (m : mutation P) (hmem : m ∈ hm.mutations)
    (h : Header) :
    ∃ h1, ServeHTTP.applyMutation m h = some h1 ∧
      (∀ k : String, k ≠ CanonicalMIMEHeaderKey m.destination → h1 k = h k) ∧
      (∀ key : String, key.data.map Char.toLower ≠ m.destination.data.map Char.toLower →
        h1.Values key = h.Values key) ∧
      (CanonicalMIMEHeaderKey m.oldName ≠ CanonicalMIMEHeaderKey m.destination →
        h1.Values m.oldName = h.Values m.oldName) ∧
      ((m.newName ≠ "" ∨ m.mutate = true) → h.Values m.oldName ≠ [] →
        (h1.Values m.destination).length = (h.Values m.oldName).length) := by
  obtain ⟨hdel, hwf⟩ := (New_rules P next config name hm hnew).1 m hmem
  obtain ⟨h1, hrun⟩ := ServeHTTP.applyMutation_total m h hwf
  have hframe : ∀ k : String, k ≠ CanonicalMIMEHeaderKey m.destination → h1 k = h k :=
    fun k hk => ServeHTTP.applyMutation_frame m h h1 hdel hrun k hk
  refine ⟨h1, hrun, hframe, ?_, ?_, ?_⟩
  · intro key hkey
    unfold Header.Values
    rw [hframe]
    intro e
    exact hkey (map_toLower_eq_of_CanonicalMIMEHeaderKey_eq _ _ e)
  · intro hne
    unfold Header.Values
    rw [hframe _ hne]
  · intro happlied hsrc
    obtain ⟨f, hf⟩ := ServeHTTP.addValues_total m hwf
    have hgo : ¬ (m.newName = "" ∧ m.mutate = false) := by
      rintro ⟨e1, e2⟩
      rcases happlied with e | e
      · exact e e1
      · rw [e2] at e; exact Bool.false_ne_true e
    obtain ⟨h2, hrun2, hval⟩ := ServeHTTP.applyMutation_values m h f hf hgo hsrc
    rw [hrun] at hrun2
    cases hrun2
    show (h1.Values (if m.newName = "" then m.oldName else m.newName)).length = _
    rw [hval, List.length_map]

/-- The witness of C13: `Host: example.com` cloned to `X-Host` leaves both
`Host: example.com` and `X-Host: example.com`. -/
theorem applyMutation_touches_only_destination_witness :
    (ServeHTTP.applyMutation hostCloneRule hostHeader).map
      (fun h1 => (h1.Values "Host", h1.Values "X-Host")) =
      some (["example.com"], ["example.com"]) ∧
    ∃ h1, ServeHTTP.applyMutation hostCloneRule hostHeader = some h1 ∧
      (∀ k : String, k ≠ CanonicalMIMEHeaderKey hostCloneRule.destination →
        h1 k = hostHeader k) ∧
      (∀ key : String,
        key.data.map Char.toLower ≠ hostCloneRule.destination.data.map Char.toLower →
        h1.Values key = hostHeader.Values key) ∧
      (CanonicalMIMEHeaderKey hostCloneRule.oldName ≠
          CanonicalMIMEHeaderKey hostCloneRule.destination →
        h1.Values hostCloneRule.oldName = hostHeader.Values hostCloneRule.oldName) ∧
      ((hostCloneRule.newName ≠ "" ∨ hostCloneRule.mutate = true) →
        hostHeader.Values hostCloneRule.oldName ≠ [] →
        (h1.Values hostCloneRule.destination).length =
          (hostHeader.Values hostCloneRule.oldName).length) :=
  ⟨by decide,
    applyMutation_touches_only_destination countingNext testConfig "mutateHeaders" testMutator
      New_testConfig hostCloneRule (List.mem_cons_self _ _) hostHeader⟩

/-- The pass of an engine whose two stages do not fail: the next handler is
applied to the writer as it came and to the request with the header map the
from-URL stage leaves. -/
theorem HeaderMutator.ServeHTTP_eq {P : RegexpPkg} (hm : HeaderMutator P) (rw : ResponseWriter)
    (req : Request) (hd1 hd2 : Header)
    (h1 : ServeHTTP.applyMutations hm.mutations req.Header = some hd1)
    (h2 : ServeHTTP.applyFromUrlMutations (fullRequestURL req) hm.fromUrlMutations hd1 =
      some hd2) :
    hm.ServeHTTP rw req = some (hm.next rw { req with Header := hd2 }) := by
  cases req with
  | mk tls host url hd0 =>
    unfold HeaderMutator.ServeHTTP
    simp only at h1 h2
    simp only [h1]
    have e : fullRequestURL { TLS := tls, Host := host, URL := url, Header := hd1 } =
        fullRequestURL { TLS := tls, Host := host, URL := url, Header := hd0 } := rfl
    rw [e, h2]

/-- The two stages of an engine built by `New` do not fail. -/
theorem New_stages_total {P : RegexpPkg} (next : Handler) (config : Config) (name : String)
    (hm : HeaderMutator P) (hnew : New P next config name = .ok hm) (url : String)
    (h : Header) :
    ∃ hd1 hd2, ServeHTTP.applyMutations hm.mutations h = some hd1 ∧
      ServeHTTP.applyFromUrlMutations url hm.fromUrlMutations hd1 = some hd2 := by
  obtain ⟨hmut, hurl⟩ := New_rules P next config name hm hnew
  obtain ⟨hd1, hrun1⟩ := ServeHTTP.applyMutations_total hm.mutations h (fun m x => (hmut m x).2)
  obtain ⟨hd2, hrun2, _⟩ := ServeHTTP.applyFromUrlMutations_key url hm.fromUrlMutations hd1 hurl
  exact ⟨hd1, hd2, hrun1, hrun2⟩

/-- C14: for an engine built by `New`, `ServeHTTP` does not fail on any request,
and its result is the result of the next handler, applied once to the writer
as `ServeHTTP` received it and to the request whose header map went through
all the header rules and then all the from-URL rules. -/
theorem ServeHTTP_calls_next_once {P : RegexpPkg} (next : Handler) (config : Config)
    (name : String) (hm : HeaderMutator P) (hnew : New P next config name = .ok hm)
    (rw : ResponseWriter) (req : Request) :
    ∃ hd1 hd2, ServeHTTP.applyMutations hm.mutations req.Header = some hd1 ∧
      ServeHTTP.applyFromUrlMutations (fullRequestURL req) hm.fromUrlMutations hd1 = some hd2 ∧
      hm.ServeHTTP rw req = some (next rw { req with Header := hd2 }) := by
  obtain ⟨hd1, hd2, h1, h2⟩ :=
    New_stages_total next config name hm hnew (fullRequestURL req) req.Header
  refine ⟨hd1, hd2, h1, h2, ?_⟩
  rw [HeaderMutator.ServeHTTP_eq hm rw req hd1 hd2 h1 h2, (New_ok P next config name hm hnew).2.2.1]

/-- The witness of C14: with a next handler that counts its calls in the status
code, one pass moves the code from 200 to 201, on a request where no header
rule finds its source and on one where both do. -/
theorem ServeHTTP_calls_next_once_witness :
    (testMutator.ServeHTTP { Code := 200, Body := "" }
        { testRequest with Header := Header.empty }).map
      (fun r => (r.1, r.2.Header.Values "X-Host", r.2.Header.Values "New_Header")) =
      some ({ Code := 201, Body := "" }, [], ["example-test"]) ∧
    (testMutator.ServeHTTP { Code := 200, Body := "" }
        { testRequest with Header := hostLocationHeader }).map
      (fun r => (r.1, r.2.Header.Values "X-Host", r.2.Header.Values "Location")) =
      some ({ Code := 201, Body := "" }, ["example.com"], ["bar"]) ∧
    ∃ hd1 hd2, ServeHTTP.applyMutations testMutator.mutations testRequest.Header = some hd1 ∧
      ServeHTTP.applyFromUrlMutations (fullRequestURL testRequest) testMutator.fromUrlMutations
        hd1 = some hd2 ∧
      testMutator.ServeHTTP { Code := 200, Body := "" } testRequest =
        some (countingNext { Code := 200, Body := "" } { testRequest with Header := hd2 }) :=
  ⟨by decide, by decide,
    ServeHTTP_calls_next_once countingNext testConfig "mutateHeaders" testMutator New_testConfig
      { Code := 200, Body := "" } testRequest⟩

/-- The from-URL loop on rules that have their pattern: it does not fail, keeps
every value list as a prefix, and adds under each name the values of the rules
with that destination, in the order of the rules. -/
theorem ServeHTTP.applyFromUrlMutations_values {P : RegexpPkg} (url : String)
    (ms : List (fromUrlMutation P)) (h : Header) (hwf : ∀ m ∈ ms, m.regex ≠ none) :
    ∃ h1, ServeHTTP.applyFromUrlMutations url ms h = some h1 ∧
      (∀ (k : String) (vs : List String), h k = some vs → ∃ ws, h1 k = some (vs ++ ws)) ∧
      (∀ D : String, h1.Values D = h.Values D ++
        (ms.filter (fun m =>
          CanonicalMIMEHeaderKey m.newName = CanonicalMIMEHeaderKey D)).filterMap (fun m =>
            m.regex.map (fun re =>
              if P.ReplaceAllString re url m.replacement = "" then url
              else P.ReplaceAllString re url m.replacement))) := by
  obtain ⟨h1, hrun, hkey⟩ := ServeHTTP.applyFromUrlMutations_key url ms h hwf
  refine ⟨h1, hrun, ?_, ?_⟩
  · intro k vs hk
    rw [hkey k, hk]
    split
    · exact ⟨[], by simp⟩
    · exact ⟨_, rfl⟩
  · intro D
    unfold Header.Values
    rw [hkey]
    split
    · rename_i hnil
      simp [List.isEmpty_iff.mp hnil]
    · simp

/-- C16: for an engine built by `New`, the header map handed to the next handler
is the result of the from-URL stage on the result of the header stage; so
under every name D it holds what the header stage left under D followed by
the values of the from-URL rules with destination D, and no value the header
stage left is cleared; with one header rule and one from-URL rule on the same
destination, that is the outputs of the header rule followed by the value
derived from the URL. -/
theorem ServeHTTP_header_rules_then_url_rules {P : RegexpPkg} (next : Handler)
    (config : Config) (name : String) (hm : HeaderMutator P)
    (hnew : New P next config name = .ok hm) (rw : ResponseWriter) (req : Request) :
    ∃ hd1 hd2, ServeHTTP.applyMutations hm.mutations req.Header = some hd1 ∧
      ServeHTTP.applyFromUrlMutations (fullRequestURL req) hm.fromUrlMutations hd1 = some hd2 ∧
      hm.ServeHTTP rw req = some (next rw { req with Header := hd2 }) ∧
      (∀ D : String, hd2.Values D = hd1.Values D ++
        (hm.fromUrlMutations.filter (fun u =>
          CanonicalMIMEHeaderKey u.newName = CanonicalMIMEHeaderKey D)).filterMap (fun u =>
            u.regex.map (fun re =>
              if P.ReplaceAllString re (fullRequestURL req) u.replacement = ""
              then fullRequestURL req
              else P.ReplaceAllString re (fullRequestURL req) u.replacement))) ∧
      (∀ (k : String) (vs : List String), hd1 k = some vs → ∃ ws, hd2 k = some (vs ++ ws)) ∧
      (∀ (m : mutation P) (u : fromUrlMutation P) (re : P.Regexp),
        hm.mutations = [m] → hm.fromUrlMutations = [u] → u.regex = some re →
        CanonicalMIMEHeaderKey u.newName = CanonicalMIMEHeaderKey m.destination →
        ∃ hrule, ServeHTTP.applyMutation m req.Header = some hrule ∧
          hd2.Values m.destination = hrule.Values m.destination ++
            [if P.ReplaceAllString re (fullRequestURL req) u.replacement = ""
             then fullRequestURL req
             else P.ReplaceAllString re (fullRequestURL req) u.replacement]) := by
  obtain ⟨hmut, hurl⟩ := New_rules P next config name hm hnew
  obtain ⟨hd1, hrun1⟩ :=
    ServeHTTP.applyMutations_total hm.mutations req.Header (fun m x => (hmut m x).2)
  obtain ⟨hd2, hrun2, hkeep, hval⟩ :=
    ServeHTTP.applyFromUrlMutations_values (fullRequestURL req) hm.fromUrlMutations hd1 hurl
  refine ⟨hd1, hd2, hrun1, hrun2, ?_, hval, hkeep, ?_⟩
  · rw [HeaderMutator.ServeHTTP_eq hm rw req hd1 hd2 hrun1 hrun2,
      (New_ok P next config name hm hnew).2.2.1]
  · intro m u re hms hus hre hkey
    rw [hms] at hrun1
    simp only [ServeHTTP.applyMutations] at hrun1
    cases hstep : ServeHTTP.applyMutation m req.Header with
    | none => rw [hstep] at hrun1; exact absurd hrun1 (by simp)
    | some hrule =>
      rw [hstep] at hrun1
      simp only [Option.some.injEq] at hrun1
      subst hrun1
      refine ⟨hrule, rfl, ?_⟩
      rw [hval, hus]
      simp [hkey, hre]

/-- The second engine of the fixtures is the one `New` returns. -/
theorem New_sharedDestinationConfig :
    New Rx.pkg countingNext sharedDestinationConfig "mutateHeaders" =
      .ok sharedDestinationMutator :=
  rfl

/-- The witness of C16: `Host -> New_Header` and a from-URL rule on `New_Header`
leave `New_Header: example.com, example-test`. -/
theorem ServeHTTP_header_rules_then_url_rules_witness :
    (sharedDestinationMutator.ServeHTTP { Code := 200, Body := "" } testRequest).map
      (fun r => r.2.Header.Values "New_Header") = some ["example.com", "example-test"] ∧
    ∃ hd1 hd2,
      ServeHTTP.applyMutations sharedDestinationMutator.mutations testRequest.Header = some hd1 ∧
      ServeHTTP.applyFromUrlMutations (fullRequestURL testRequest)
        sharedDestinationMutator.fromUrlMutations hd1 = some hd2 ∧
      sharedDestinationMutator.ServeHTTP { Code := 200, Body := "" } testRequest =
        some (countingNext { Code := 200, Body := "" } { testRequest with Header := hd2 }) ∧
      (∀ (k : String) (vs : List String), hd1 k = some vs → ∃ ws, hd2 k = some (vs ++ ws)) :=
  ⟨by decide,
    match ServeHTTP_header_rules_then_url_rules countingNext sharedDestinationConfig
      "mutateHeaders" sharedDestinationMutator New_sharedDestinationConfig
      { Code := 200, Body := "" } testRequest with
    | ⟨hd1, hd2, h1, h2, h3, _, h5, _⟩ => ⟨hd1, hd2, h1, h2, h3, h5⟩⟩

/-- The canonical URL of a request, as a function of its TLS status, Host field
and request URI. -/
theorem fullRequestURL_url_eq (req : Request) :
    fullRequestURL req =
      (if req.TLS.isSome then "https" else "http") ++ "://" ++ req.Host ++
        req.URL.RequestURI := by
  unfold fullRequestURL
  cases req.TLS <;> simp

/-- C17: the values the from-URL rules add do not depend on the header map: on
two requests with the same TLS status, Host field and request URI, and any
header maps, an engine built by `New` adds the same values, under every name
and in the same order, to what the header stage left. -/
theorem fromUrl_values_independent_of_headers {P : RegexpPkg} (next : Handler)
    (config : Config) (name : String) (hm : HeaderMutator P)
    (hnew : New P next config name = .ok hm) (req1 req2 : Request)
    (htls : req1.TLS.isSome = req2.TLS.isSome) (hhost : req1.Host = req2.Host)
    (huri : req1.URL.RequestURI = req2.URL.RequestURI) :
    fullRequestURL req1 = fullRequestURL req2 ∧
    ∃ (appended : String → List String) (a1 b1 a2 b2 : Header),
      ServeHTTP.applyMutations hm.mutations req1.Header = some a1 ∧
      ServeHTTP.applyFromUrlMutations (fullRequestURL req1) hm.fromUrlMutations a1 = some b1 ∧
      ServeHTTP.applyMutations hm.mutations req2.Header = some a2 ∧
      ServeHTTP.applyFromUrlMutations (fullRequestURL req2) hm.fromUrlMutations a2 = some b2 ∧
      ∀ D : String, b1.Values D = a1.Values D ++ appended D ∧
        b2.Values D = a2.Values D ++ appended D := by
  have hurl : fullRequestURL req1 = fullRequestURL req2 := by
    rw [fullRequestURL_url_eq req1, fullRequestURL_url_eq req2, htls, hhost, huri]
  obtain ⟨hmut, hwf⟩ := New_rules P next config name hm hnew
  obtain ⟨a1, hrun1⟩ :=
    ServeHTTP.applyMutations_total hm.mutations req1.Header (fun m x => (hmut m x).2)
  obtain ⟨a2, hrun2⟩ :=
    ServeHTTP.applyMutations_total hm.mutations req2.Header (fun m x => (hmut m x).2)
  obtain ⟨b1, hu1, _, hval1⟩ :=
    ServeHTTP.applyFromUrlMutations_values (fullRequestURL req1) hm.fromUrlMutations a1 hwf
  obtain ⟨b2, hu2, _, hval2⟩ :=
    ServeHTTP.applyFromUrlMutations_values (fullRequestURL req2) hm.fromUrlMutations a2 hwf
  refine ⟨hurl, _, a1, b1, a2, b2, hrun1, hu1, hrun2, hu2, fun D => ⟨hval1 D, ?_⟩⟩
  rw [hval2 D, hurl]

/-- The witness of C17: the same request with the header maps `hostHeader` and
`hostLocationHeader` gets `New_Header: example-test` in both runs. -/
theorem fromUrl_values_independent_of_headers_witness :
    (testMutator.ServeHTTP { Code := 200, Body := "" } testRequest).map
      (fun r => r.2.Header.Values "New_Header") = some ["example-test"] ∧
    (testMutator.ServeHTTP { Code := 200, Body := "" }
        { testRequest with Header := hostLocationHeader }).map
      (fun r => r.2.Header.Values "New_Header") = some ["example-test"] ∧
    (fullRequestURL testRequest =
        fullRequestURL { testRequest with Header := hostLocationHeader } ∧
      ∃ (appended : String → List String) (a1 b1 a2 b2 : Header),
        ServeHTTP.applyMutations testMutator.mutations testRequest.Header = some a1 ∧
        ServeHTTP.applyFromUrlMutations (fullRequestURL testRequest)
          testMutator.fromUrlMutations a1 = some b1 ∧
        ServeHTTP.applyMutations testMutator.mutations hostLocationHeader = some a2 ∧
        ServeHTTP.applyFromUrlMutations
          (fullRequestURL { testRequest with Header := hostLocationHeader })
          testMutator.fromUrlMutations a2 = some b2 ∧
        ∀ D : String, b1.Values D = a1.Values D ++ appended D ∧
          b2.Values D = a2.Values D ++ appended D) :=
  ⟨by decide, by decide,
    fromUrl_values_independent_of_headers countingNext testConfig "mutateHeaders" testMutator
      New_testConfig testRequest { testRequest with Header := hostLocationHeader } rfl rfl rfl⟩

/-- C18: when `New` succeeds, the compiled rules follow the configuration entry
by entry: the lists have the lengths of the configured lists; a compiled
header rule has the names of its entry, `mutate` set exactly when the Regex of
the entry is not empty, with `mutate` set the compiled Regex and the
Replacement of the entry, which is not empty, and with `mutate` unset no
pattern and no replacement; a compiled from-URL rule has the name of its
entry, the compiled Regex and the Replacement of the entry, which is not empty. -/
theorem New_compiled_rules {P : RegexpPkg} (next : Handler) (config : Config) (name : String)
    (hm : HeaderMutator P) (hnew : New P next config name = .ok hm) :
    hm.mutations.length = config.Mutations.length ∧
    hm.fromUrlMutations.length = config.FromUrlMutations.length ∧
    List.Forall₂ (fun (m : Mutation) (mt : mutation P) =>
      mt.oldName = m.Header ∧ mt.newName = m.NewName ∧ mt.deleteSource = false ∧
      (mt.mutate = true ↔ m.Regex ≠ "") ∧
      (mt.mutate = true → ∃ re, P.Compile m.Regex = .ok re ∧ mt.regex = some re ∧
        mt.replacement = m.Replacement ∧ mt.replacement ≠ "") ∧
      (mt.mutate = false → mt.regex = none ∧ mt.replacement = ""))
      config.Mutations hm.mutations ∧
    List.Forall₂ (fun (m : FromUrlMutation) (mt : fromUrlMutation P) =>
      mt.newName = m.NewName ∧
      ∃ re, P.Compile m.Regex = .ok re ∧ mt.regex = some re ∧
        mt.replacement = m.Replacement ∧ mt.replacement ≠ "")
      config.FromUrlMutations hm.fromUrlMutations := by
  obtain ⟨h1, h2, _, _⟩ := New_ok P next config name hm hnew
  have f1 := New.mutations_ok P _ _ h1
  have f2 := New.fromUrlMutations_ok P _ _ h2
  exact ⟨f1.length_eq.symm, f2.length_eq.symm, f1, f2⟩

/-- The witness of C18: the engine built from `testConfig`, whose first entry has
a Replacement and no Regex. -/
theorem New_compiled_rules_witness :
    testMutator.mutations.map (fun mt => (mt.oldName, mt.newName, mt.mutate, mt.replacement)) =
      [("Host", "X-Host", false, ""), ("Location", "", true, "bar")] ∧
    (testMutator.mutations.length = testConfig.Mutations.length ∧
    testMutator.fromUrlMutations.length = testConfig.FromUrlMutations.length ∧
    List.Forall₂ (fun (m : Mutation) (mt : mutation Rx.pkg) =>
      mt.oldName = m.Header ∧ mt.newName = m.NewName ∧ mt.deleteSource = false ∧
      (mt.mutate = true ↔ m.Regex ≠ "") ∧
      (mt.mutate = true → ∃ re, Rx.pkg.Compile m.Regex = .ok re ∧ mt.regex = some re ∧
        mt.replacement = m.Replacement ∧ mt.replacement ≠ "") ∧
      (mt.mutate = false → mt.regex = none ∧ mt.replacement = ""))
      testConfig.Mutations testMutator.mutations ∧
    List.Forall₂ (fun (m : FromUrlMutation) (mt : fromUrlMutation Rx.pkg) =>
      mt.newName = m.NewName ∧
      ∃ re, Rx.pkg.Compile m.Regex = .ok re ∧ mt.regex = some re ∧
        mt.replacement = m.Replacement ∧ mt.replacement ≠ "")
      testConfig.FromUrlMutations testMutator.fromUrlMutations) :=
  ⟨by decide, New_compiled_rules countingNext testConfig "mutateHeaders" testMutator
    New_testConfig⟩

/-! ## Rules that clone -/

/-- A rule whose source header holds no value returns the map it was given. -/
theorem ServeHTTP.applyMutation_of_absent {P : RegexpPkg} (m : mutation P) (h : Header)
    (hnone : h.Values m.oldName = []) : ServeHTTP.applyMutation m h = some h := by
  unfold ServeHTTP.applyMutation
  by_cases hskip : m.newName = "" ∧ m.mutate = false
  · rw [if_pos hskip]
  · rw [if_neg hskip]
    simp [hnone]

/-- The whole map after a rule without a pattern that is applied and does not
delete its source: the destination holds the source values, every other key
is as it was. -/
theorem ServeHTTP.applyMutation_clone_key {P : RegexpPkg} (m : mutation P) (h : Header)
    (hmut : m.mutate = false) (hdel : m.deleteSource = false) (hname : m.newName ≠ "")
    (hsrc : h.Values m.oldName ≠ []) :
    ∃ h1, ServeHTTP.applyMutation m h = some h1 ∧ ∀ k : String,
      h1 k = if k = CanonicalMIMEHeaderKey m.newName then some (h.Values m.oldName) else h k := by
  obtain ⟨h1, hrun, hkey⟩ := ServeHTTP.applyMutation_key m h id
    (ServeHTTP.addValues_clone m hmut) (by simp [hname]) hsrc
  refine ⟨h1, hrun, fun k => ?_⟩
  rw [hkey k]
  simp [mutation.destination, hname, hdel]

/-- The rule `New` compiles for a pattern-less entry `A -> B`, applied to a map
where A holds values: B ends with the values of A, every other key is as it was. -/
theorem ServeHTTP.applyMutation_clone_rule {P : RegexpPkg} (A B : String) (h : Header)
    (hB : B ≠ "") (hsrc : h.Values A ≠ []) :
    ∃ h1,
      ServeHTTP.applyMutation
        ({ oldName := A, newName := B, deleteSource := false, mutate := false, regex := none,
           replacement := "" } : mutation P) h = some h1 ∧
      ∀ k : String, h1 k = if k = CanonicalMIMEHeaderKey B then some (h.Values A) else h k :=
  ServeHTTP.applyMutation_clone_key _ h rfl rfl hB hsrc

/-- The engine `New` builds for two pattern-less entries. -/
theorem New_clone_pair {P : RegexpPkg} (next : Handler) (name A B C D r1 r2 : String) :
    New P next { Mutations := [⟨A, B, "", r1⟩, ⟨C, D, "", r2⟩], FromUrlMutations := [] } name =
      .ok
        { name := name, next := next,
          mutations :=
            [{ oldName := A, newName := B, deleteSource := false, mutate := false, regex := none,
               replacement := "" },
             { oldName := C, newName := D, deleteSource := false, mutate := false, regex := none,
               replacement := "" }],
          fromUrlMutations := [] } := by
  simp [New, New.mutations, New.fromUrlMutations]

/-- C15: with the pattern-less rules `A -> B` then `B -> C`, on a header map where
A holds values, B and C both end with the values of A, whatever they held;
with the rules in the other order, `B -> C` then `A -> B`, C ends with the
values B held before the pass, and is left as it was when B held none. The
names B and C are destination names (not empty) with different canonical keys. -/
theorem applyMutations_chain {P : RegexpPkg} (next : Handler) (name A B C r1 r2 : String)
    (h : Header) (hB : B ≠ "") (hC : C ≠ "") (hvs : h.Values A ≠ [])
    (hBC : CanonicalMIMEHeaderKey B ≠ CanonicalMIMEHeaderKey C) :
    (∃ hm h1,
      New P next { Mutations := [⟨A, B, "", r1⟩, ⟨B, C, "", r2⟩], FromUrlMutations := [] } name =
        .ok hm ∧
      ServeHTTP.applyMutations hm.mutations h = some h1 ∧
      h1.Values B = h.Values A ∧ h1.Values C = h.Values A) ∧
    (∃ hm h2,
      New P next { Mutations := [⟨B, C, "", r2⟩, ⟨A, B, "", r1⟩], FromUrlMutations := [] } name =
        .ok hm ∧
      ServeHTTP.applyMutations hm.mutations h = some h2 ∧
      (h.Values B ≠ [] → h2.Values C = h.Values B) ∧
      (h.Values B = [] → h2 (CanonicalMIMEHeaderKey C) = h (CanonicalMIMEHeaderKey C))) := by
  constructor
  · obtain ⟨ha, hra, hka⟩ := ServeHTTP.applyMutation_clone_rule (P := P) A B h hB hvs
    have hBa : ha.Values B = h.Values A := by
      show (ha (CanonicalMIMEHeaderKey B)).getD [] = h.Values A
      rw [hka, if_pos rfl]
      rfl
    obtain ⟨hb, hrb, hkb⟩ :=
      ServeHTTP.applyMutation_clone_rule (P := P) B C ha hC (by rw [hBa]; exact hvs)
    refine ⟨_, hb, New_clone_pair next name A B B C r1 r2, ?_, ?_, ?_⟩
    · simp only [ServeHTTP.applyMutations, hra, hrb]
    · show (hb (CanonicalMIMEHeaderKey B)).getD [] = h.Values A
      rw [hkb, if_neg hBC]
      exact hBa
    · have : hb.Values C = ha.Values B := by
        show (hb (CanonicalMIMEHeaderKey C)).getD [] = ha.Values B
        rw [hkb, if_pos rfl]
        rfl
      rw [this, hBa]
  · by_cases hBp : h.Values B = []
    · have hr1 := ServeHTTP.applyMutation_of_absent (P := P)
        { oldName := B, newName := C, deleteSource := false, mutate := false, regex := none,
          replacement := "" } h hBp
      obtain ⟨h2, hr2⟩ := ServeHTTP.applyMutation_total (P := P)
        { oldName := A, newName := B, deleteSource := false, mutate := false, regex := none,
          replacement := "" } h (fun e => absurd e (by simp))
      have hf := ServeHTTP.applyMutation_frame _ h h2 rfl hr2 (CanonicalMIMEHeaderKey C)
        (by simp [mutation.destination, hB]; exact fun e => hBC e.symm)
      refine ⟨_, h2, New_clone_pair next name B C A B r2 r1, ?_,
        fun e => absurd hBp e, fun _ => hf⟩
      simp only [ServeHTTP.applyMutations, hr1, hr2]
    · obtain ⟨ha, hra, hka⟩ := ServeHTTP.applyMutation_clone_rule (P := P) B C h hC hBp
      obtain ⟨h2, hr2⟩ := ServeHTTP.applyMutation_total (P := P)
        { oldName := A, newName := B, deleteSource := false, mutate := false, regex := none,
          replacement := "" } ha (fun e => absurd e (by simp))
      have hf := ServeHTTP.applyMutation_frame _ ha h2 rfl hr2 (CanonicalMIMEHeaderKey C)
        (by simp [mutation.destination, hB]; exact fun e => hBC e.symm)
      refine ⟨_, h2, New_clone_pair next name B C A B r2 r1, ?_,
        fun _ => ?_, fun e => absurd e hBp⟩
      · simp only [ServeHTTP.applyMutations, hra, hr2]
      · show (h2 (CanonicalMIMEHeaderKey C)).getD [] = h.Values B
        rw [hf, hka, if_pos rfl]
        rfl

/-- The witness of C15: on `Host: example.com`, `X-Host: old.example,
older.example`, the rules `Host -> X-Host`, `X-Host -> X-Copy` leave
`example.com` under both, and in the other order `X-Copy` gets the two old
values of `X-Host`. -/
theorem applyMutations_chain_witness :
    (ServeHTTP.applyMutations (P := Rx.pkg)
        [{ oldName := "Host", newName := "X-Host", deleteSource := false, mutate := false,
           regex := none, replacement := "" },
         { oldName := "X-Host", newName := "X-Copy", deleteSource := false, mutate := false,
           regex := none, replacement := "" }] hostHeaderWithXHost).map
      (fun h1 => (h1.Values "X-Host", h1.Values "X-Copy")) =
      some (["example.com"], ["example.com"]) ∧
    (ServeHTTP.applyMutations (P := Rx.pkg)
        [{ oldName := "X-Host", newName := "X-Copy", deleteSource := false, mutate := false,
           regex := none, replacement := "" },
         { oldName := "Host", newName := "X-Host", deleteSource := false, mutate := false,
           regex := none, replacement := "" }] hostHeaderWithXHost).map
      (fun h1 => (h1.Values "X-Host", h1.Values "X-Copy")) =
      some (["example.com"], ["old.example", "older.example"]) ∧
    ((∃ hm h1,
      New Rx.pkg countingNext
        { Mutations := [⟨"Host", "X-Host", "", ""⟩, ⟨"X-Host", "X-Copy", "", ""⟩],
          FromUrlMutations := [] } "mutateHeaders" = .ok hm ∧
      ServeHTTP.applyMutations hm.mutations hostHeaderWithXHost = some h1 ∧
      h1.Values "X-Host" = hostHeaderWithXHost.Values "Host" ∧
      h1.Values "X-Copy" = hostHeaderWithXHost.Values "Host") ∧
    (∃ hm h2,
      New Rx.pkg countingNext
        { Mutations := [⟨"X-Host", "X-Copy", "", ""⟩, ⟨"Host", "X-Host", "", ""⟩],
          FromUrlMutations := [] } "mutateHeaders" = .ok hm ∧
      ServeHTTP.applyMutations hm.mutations hostHeaderWithXHost = some h2 ∧
      (hostHeaderWithXHost.Values "X-Host" ≠ [] →
        h2.Values "X-Copy" = hostHeaderWithXHost.Values "X-Host") ∧
      (hostHeaderWithXHost.Values "X-Host" = [] →
        h2 (CanonicalMIMEHeaderKey "X-Copy") =
          hostHeaderWithXHost (CanonicalMIMEHeaderKey "X-Copy")))) :=
  ⟨by decide, by decide,
    applyMutations_chain countingNext "mutateHeaders" "Host" "X-Host" "X-Copy" "" ""
      hostHeaderWithXHost (by decide) (by decide) (by decide) (by decide)⟩

/-- A rule without a pattern whose two names have the same canonical key returns
the map it was given. -/
theorem ServeHTTP.applyMutation_same_key {P : RegexpPkg} (m : mutation P) (h : Header)
    (hmut : m.mutate = false)
    (hkey : CanonicalMIMEHeaderKey m.newName = CanonicalMIMEHeaderKey m.oldName) :
    ServeHTTP.applyMutation m h = some h := by
  by_cases hsrc : h.Values m.oldName = []
  · exact ServeHTTP.applyMutation_of_absent m h hsrc
  · by_cases hname : m.newName = ""
    · unfold ServeHTTP.applyMutation
      rw [if_pos ⟨hname, hmut⟩]
    · obtain ⟨h1, hrun, hk⟩ := ServeHTTP.applyMutation_key m h id
        (ServeHTTP.addValues_clone m hmut) (by simp [hname]) hsrc
      rw [hrun]
      congr 1
      funext k
      rw [hk k]
      simp only [mutation.destination, hname, if_false, List.map_id]
      by_cases e : k = CanonicalMIMEHeaderKey m.newName
      · rw [if_pos e, e, hkey]
        unfold Header.Values at hsrc ⊢
        cases hv : h (CanonicalMIMEHeaderKey m.oldName) with
        | none => rw [hv] at hsrc; exact absurd rfl hsrc
        | some vs => rfl
      · rw [if_neg e, if_neg (fun c => e (c.2.trans hkey.symm))]

/-- C19, as the claim states it, fails for a name with a space: the keys of the
map are in canonical form, the two names of the rule differ in letter case
only, and the rule adds the key `My Header` to a map that did not have it. -/
theorem applyMutation_self_clone_counterexample :
    "My Header".data.map Char.toLower = "my header".data.map Char.toLower ∧
    (∀ k : String, spacedNameHeader k ≠ none → CanonicalMIMEHeaderKey k = k) ∧
    spacedNameHeader "My Header" = none ∧
    (ServeHTTP.applyMutation spacedSelfCloneRule spacedNameHeader).map
      (fun h1 => h1 "My Header") = some (some ["v"]) := by
  refine ⟨by decide, ?_, by decide, by decide⟩
  intro k hk
  by_cases e : k = CanonicalMIMEHeaderKey "my header"
  · rw [e]
    decide
  · exact absurd (by simp [spacedNameHeader, Header.Add, Header.empty, e]) hk

/-- C19, amended: a rule without a pattern whose destination name is its source
name, letter case aside, and whose name is made of header token characters,
returns the header map it was given: same keys, same values, same order. -/
theorem applyMutation_self_clone_identity {P : RegexpPkg} (m : mutation P) (h : Header)
    (hmut : m.mutate = false)
    (htoken : m.oldName.data.all validHeaderFieldByte = true)
    (hcase : m.newName.data.map Char.toLower = m.oldName.data.map Char.toLower) :
    ServeHTTP.applyMutation m h = some h :=
  ServeHTTP.applyMutation_same_key m h hmut
    (CanonicalMIMEHeaderKey_congr m.oldName m.newName htoken hcase.symm).symm

/-- The witness of C19: the rule `Host -> host` on `Host: example.com`. -/
theorem applyMutation_self_clone_identity_witness :
    hostHeader.Values "Host" = ["example.com"] ∧
    ServeHTTP.applyMutation { hostCloneRule with newName := "host" } hostHeader =
      some hostHeader :=
  ⟨by decide,
    applyMutation_self_clone_identity { hostCloneRule with newName := "host" } hostHeader rfl
      (by decide) (by decide)⟩

end InsertCustomHeader
